import Mathlib

/-!
Verification of the wow_dbc DBC binary codec and its generated table code.

The development shallowly embeds the generated table sources
(`lock_type.rs`, `sound_entries.rs`, `file_data.rs`,
`gt_chance_to_spell_crit_base.rs`, `spell_range.rs`) and the generator's
table-name parsing (`rxml/src/main.rs`).  Byte streams are `List Nat`
(each element one byte), machine integers are `Nat`/`Int` with explicit
`% 2^32` where the Rust code casts with `as u32` or multiplies `u32`
values (release-mode wrapping), and fallible code returns
`Except`/`Option`.  Hand-written runtime helpers of the crate
(`crate::header`, `crate::util`, the localized-string types) are not part
of the sampled sources; definitions for them are modelled from the
specification and are marked as such in their doc comments.
-/

/-! ## Byte-level primitives -/

/-- Byte streams: one `Nat` per byte (values are below 256 whenever the
bytes come from an encoder). -/
abbrev Bytes := List Nat

/-- Little-endian encoding of a `u32` value, as in `u32::to_le_bytes`. -/
def u32le (n : Nat) : Bytes :=
  [n % 256, n / 256 % 256, n / 2 ^ 16 % 256, n / 2 ^ 24 % 256]

/-- Little-endian decoding of four bytes into a `u32` value, as in
`u32::from_le_bytes`. -/
def decodeU32 (b0 b1 b2 b3 : Nat) : Nat :=
  b0 + b1 * 256 + b2 * 2 ^ 16 + b3 * 2 ^ 24

/-- Modelled from the spec: `crate::util::read_u32_le` reads four bytes
from the record chunk and decodes them little-endian; a short chunk is a
premature end of input. -/
def readU32 : Bytes → Option (Nat × Bytes)
  | b0 :: b1 :: b2 :: b3 :: rest => some (decodeU32 b0 b1 b2 b3, rest)
  | _ => none

/-- Two's-complement reading of a `u32` bit pattern as an `i32`. -/
def i32OfBits (n : Nat) : Int :=
  if n < 2 ^ 31 then (n : Int) else (n : Int) - 2 ^ 32

/-- Little-endian encoding of an `i32` value, as in `i32::to_le_bytes`. -/
def i32le (x : Int) : Bytes :=
  u32le ((x % (2 ^ 32 : Int)).toNat)

/-- Modelled from the spec: `crate::util::read_i32_le` reads four bytes
little-endian and reinterprets them as a signed 32-bit integer. -/
def readI32 (b : Bytes) : Option (Int × Bytes) :=
  (readU32 b).map (fun p => (i32OfBits p.1, p.2))

theorem u32le_length (n : Nat) : (u32le n).length = 4 := rfl

theorem i32le_length (x : Int) : (i32le x).length = 4 := rfl

theorem readU32_u32le (n : Nat) (rest : Bytes) (h : n < 2 ^ 32) :
    readU32 (u32le n ++ rest) = some (n, rest) := by
  simp only [u32le, List.cons_append, List.nil_append, readU32, decodeU32]
  refine congrArg some (Prod.ext ?_ rfl)
  show n % 256 + n / 256 % 256 * 256 + n / 2 ^ 16 % 256 * 2 ^ 16 + n / 2 ^ 24 % 256 * 2 ^ 24 = n
  omega

theorem readI32_i32le (x : Int) (rest : Bytes)
    (h1 : -2 ^ 31 ≤ x) (h2 : x < 2 ^ 31) :
    readI32 (i32le x ++ rest) = some (x, rest) := by
  have hmod : (0 : Int) ≤ x % (2 ^ 32 : Int) := Int.emod_nonneg x (by norm_num)
  have hlt : x % (2 ^ 32 : Int) < 2 ^ 32 := Int.emod_lt_of_pos x (by norm_num)
  have hbits : (x % (2 ^ 32 : Int)).toNat < 2 ^ 32 := by omega
  simp only [readI32, i32le, readU32_u32le _ _ hbits, Option.map_some]
  refine congrArg some (Prod.ext ?_ rfl)
  simp only [i32OfBits]
  have hx : x % (2 ^ 32 : Int) = if 0 ≤ x then x else x + 2 ^ 32 := by
    split <;> omega
  split <;> rename_i hcase <;> omega

/-! ## UTF-8 validation (behavior of `String::from_utf8`) -/

/-- One step of the standard UTF-8 acceptance automaton.  State `0` is
the accepting start state; the other states count outstanding
continuation bytes, with dedicated states for the `E0`/`ED`/`F0`/`F4`
restricted second bytes. -/
def utf8Step (st b : Nat) : Option Nat :=
  match st with
  | 0 =>
    if b ≤ 0x7F then some 0
    else if 0xC2 ≤ b ∧ b ≤ 0xDF then some 1
    else if b = 0xE0 then some 3
    else if (0xE1 ≤ b ∧ b ≤ 0xEC) ∨ b = 0xEE ∨ b = 0xEF then some 2
    else if b = 0xED then some 4
    else if b = 0xF0 then some 6
    else if 0xF1 ≤ b ∧ b ≤ 0xF3 then some 5
    else if b = 0xF4 then some 7
    else none
  | 1 => if 0x80 ≤ b ∧ b ≤ 0xBF then some 0 else none
  | 2 => if 0x80 ≤ b ∧ b ≤ 0xBF then some 1 else none
  | 3 => if 0xA0 ≤ b ∧ b ≤ 0xBF then some 1 else none
  | 4 => if 0x80 ≤ b ∧ b ≤ 0x9F then some 1 else none
  | 5 => if 0x80 ≤ b ∧ b ≤ 0xBF then some 2 else none
  | 6 => if 0x90 ≤ b ∧ b ≤ 0xBF then some 2 else none
  | 7 => if 0x80 ≤ b ∧ b ≤ 0x8F then some 2 else none
  | _ => none

/-- Run the UTF-8 automaton over a byte list. -/
def utf8Run : Nat → Bytes → Bool
  | st, [] => st == 0
  | st, b :: rest =>
    match utf8Step st b with
    | some st2 => utf8Run st2 rest
    | none => false

/-- A byte list is valid UTF-8 (the success condition of
`String::from_utf8`). -/
def isUtf8 (s : Bytes) : Bool := utf8Run 0 s

/-! ## Error model (`crate::DbcError`, `crate::InvalidHeaderError`) -/

/-- The typed header errors surfaced by the generated `read` routines. -/
inductive InvalidHeaderError where
  | recordSize (expected actual : Nat)
  | fieldCount (expected actual : Nat)
  | magic
  deriving DecidableEq, Repr

/-- The codec error type.  `ioError` stands for a failed or prematurely
ended stream, `invalidString` for a string reference that cannot be
resolved or decoded as UTF-8, `invalidTableName` for a failed
table-name parse. -/
inductive DbcError where
  | invalidHeader (e : InvalidHeaderError)
  | ioError
  | invalidString
  | invalidTableName (s : String)
  deriving DecidableEq, Repr

/-- Behavior of the `String::from_utf8(s)?` step of the generated read
routines: keep the bytes when they are valid UTF-8, otherwise surface
the typed string error. -/
def fromUtf8 (s : Bytes) : Except DbcError Bytes :=
  if isUtf8 s then .ok s else .error .invalidString

/-! ## String block machinery -/

/-- Modelled from the spec: resolve a string reference by walking the
string block from the given byte offset to the next NUL.  An offset
past the end of the block, or one with no terminating NUL, cannot be
resolved. -/
def scanString (block : Bytes) (off : Nat) : Option Bytes :=
  let tail := block.drop off
  if tail.contains 0 then some (tail.takeWhile (fun b => b ≠ 0)) else none

/-- Modelled from the spec: `crate::util::get_string_as_vec` consumes a
`u32` offset from the record chunk and resolves it in the string block,
returning the raw bytes and the rest of the chunk. -/
def get_string_as_vec (chunk block : Bytes) : Except DbcError (Bytes × Bytes) :=
  match readU32 chunk with
  | none => .error .ioError
  | some (off, rest) =>
    match scanString block off with
    | none => .error .invalidString
    | some s => .ok (s, rest)

/-- The number of string-block bytes one string slot contributes:
`len + 1` when non-empty, `0` when empty. -/
def refWeight (s : Bytes) : Nat := if s = [] then 0 else s.length + 1

/-- Total string-block contribution of a list of string slots, in
traversal order. -/
def weight (l : List Bytes) : Nat := (l.map refWeight).sum

/-- The string-block bytes produced by a list of string slots in
traversal order: `bytes ++ [0]` per non-empty slot, nothing for empty
slots. -/
def refBlock (l : List Bytes) : Bytes :=
  l.flatMap (fun s => if s = [] then [] else s ++ [0])

theorem weight_nil : weight [] = 0 := rfl

theorem weight_cons (s : Bytes) (l : List Bytes) :
    weight (s :: l) = refWeight s + weight l := by
  simp [weight]

theorem weight_append (l1 l2 : List Bytes) :
    weight (l1 ++ l2) = weight l1 + weight l2 := by
  simp [weight]

theorem refBlock_nil : refBlock [] = [] := rfl

theorem refBlock_cons (s : Bytes) (l : List Bytes) :
    refBlock (s :: l) = (if s = [] then [] else s ++ [0]) ++ refBlock l := by
  simp [refBlock]

theorem refBlock_append (l1 l2 : List Bytes) :
    refBlock (l1 ++ l2) = refBlock l1 ++ refBlock l2 := by
  simp [refBlock]

theorem refBlock_length (l : List Bytes) : (refBlock l).length = weight l := by
  induction l with
  | nil => rfl
  | cons s rest ih =>
    rw [refBlock_cons, weight_cons, List.length_append, ih, refWeight]
    split <;> simp [*]

theorem takeWhile_ne_zero_append (s rest : Bytes) (h : (0 : Nat) ∉ s) :
    (s ++ 0 :: rest).takeWhile (fun b => b ≠ 0) = s := by
  induction s with
  | nil => simp [List.takeWhile]
  | cons b bs ih =>
    have hb : b ≠ 0 := by
      intro hb0
      exact h (hb0 ▸ List.mem_cons_self b bs)
    have hbs : (0 : Nat) ∉ bs := fun hm => h (List.mem_cons_of_mem b hm)
    simp only [List.cons_append, List.takeWhile_cons]
    rw [if_pos (by simpa using hb)]
    rw [ih hbs]

/-- Resolving offset `0` always yields the empty string (the block
starts with the sentinel NUL). -/
theorem scanString_zero (rest : Bytes) : scanString (0 :: rest) 0 = some [] := by
  simp [scanString, List.contains, List.takeWhile]

/-- Resolution at the position right after a prefix of the block yields
the string placed there, provided the string has no interior NUL. -/
theorem scanString_at (pre s post : Bytes) (h0 : (0 : Nat) ∉ s) :
    scanString (0 :: (pre ++ (s ++ 0 :: post))) (1 + pre.length) = some s := by
  have hdrop : (0 :: (pre ++ (s ++ 0 :: post))).drop (1 + pre.length)
      = s ++ 0 :: post := by
    have : (0 :: (pre ++ (s ++ 0 :: post))).drop (1 + pre.length)
        = (pre ++ (s ++ 0 :: post)).drop pre.length := by
      rw [Nat.add_comm]
      simp [List.drop_succ_cons]
    rw [this, List.drop_left]
  simp only [scanString, hdrop]
  rw [if_pos]
  · rw [takeWhile_ne_zero_append s post h0]
  · simp [List.contains_eq_any_beq]

/-! ## Header (`crate::header`) -/

/-- The fixed 20-byte DBC header (`crate::header::DbcHeader`). -/
structure DbcHeader where
  record_count : Nat
  field_count : Nat
  record_size : Nat
  string_block_size : Nat
  deriving DecidableEq, Repr

/-- `DbcHeader::write_header`: the magic tag `WDBC` followed by the four
`u32` fields, little-endian. -/
def DbcHeader.write_header (h : DbcHeader) : Bytes :=
  [87, 68, 66, 67] ++ u32le h.record_count ++ u32le h.field_count
    ++ u32le h.record_size ++ u32le h.string_block_size

/-- `crate::header::HEADER_SIZE`. -/
def HEADER_SIZE : Nat := 20

/-- Modelled from the spec: `crate::header::parse_header` checks the
`WDBC` magic on the first four bytes and decodes the four `u32` header
fields; fewer than 20 bytes is a premature end of input. -/
def parse_header (b : Bytes) : Except DbcError DbcHeader :=
  match b with
  | m0 :: m1 :: m2 :: m3 :: b4 :: b5 :: b6 :: b7 :: b8 :: b9 :: b10 :: b11 ::
      b12 :: b13 :: b14 :: b15 :: b16 :: b17 :: b18 :: b19 :: _ =>
    if m0 = 87 ∧ m1 = 68 ∧ m2 = 66 ∧ m3 = 67 then
      .ok ⟨decodeU32 b4 b5 b6 b7, decodeU32 b8 b9 b10 b11,
           decodeU32 b12 b13 b14 b15, decodeU32 b16 b17 b18 b19⟩
    else .error (.invalidHeader .magic)
  | _ => .error .ioError

theorem write_header_length (h : DbcHeader) : h.write_header.length = 20 := rfl

theorem parse_header_write_header (h : DbcHeader) (rest : Bytes)
    (h1 : h.record_count < 2 ^ 32) (h2 : h.field_count < 2 ^ 32)
    (h3 : h.record_size < 2 ^ 32) (h4 : h.string_block_size < 2 ^ 32) :
    parse_header (h.write_header ++ rest) = .ok h := by
  obtain ⟨a, b, c, d⟩ := h
  replace h1 : a < 2 ^ 32 := h1
  replace h2 : b < 2 ^ 32 := h2
  replace h3 : c < 2 ^ 32 := h3
  replace h4 : d < 2 ^ 32 := h4
  simp only [DbcHeader.write_header, u32le, List.cons_append, List.nil_append,
    parse_header]
  rw [if_pos (by norm_num)]
  refine congrArg Except.ok ?_
  simp only [DbcHeader.mk.injEq]
  refine ⟨?_, ?_, ?_, ?_⟩ <;> (simp only [decodeU32]; omega)

/-! ## Generic string-reference encoding and decoding -/

/-- The `string_ref` encoding rule of the generated `write` bodies: a
non-empty value emits the current `string_index` as a `u32` and
advances the cursor by `len + 1`; an empty value emits `u32` zero and
leaves the cursor alone. -/
def writeStrRef (s : Bytes) (string_index : Nat) : Bytes × Nat :=
  if s ≠ [] then (u32le (string_index % 2 ^ 32), string_index + s.length + 1)
  else (u32le 0, string_index)

/-- Encode a list of string slots in order, threading the
`string_index` cursor (the loop body of an array of `string_ref`s, and
of the locale slots of a localized string). -/
def encodeRefs : List Bytes → Nat → Bytes × Nat
  | [], string_index => ([], string_index)
  | s :: rest, string_index =>
    let p := writeStrRef s string_index
    let q := encodeRefs rest p.2
    (p.1 ++ q.1, q.2)

/-- Read `n` consecutive string references from the chunk, resolving
each in the string block and validating UTF-8 (the read-side loop for
`string_ref` arrays and localized-string slots). -/
def readNStrings : Nat → Bytes → Bytes → Except DbcError (List Bytes × Bytes)
  | 0, chunk, _ => .ok ([], chunk)
  | n + 1, chunk, block =>
    match get_string_as_vec chunk block with
    | .error e => .error e
    | .ok (sv, rest) =>
      match fromUtf8 sv with
      | .error e => .error e
      | .ok s =>
        match readNStrings n rest block with
        | .error e => .error e
        | .ok (ss, rest2) => .ok (s :: ss, rest2)

theorem encodeRefs_snd (l : List Bytes) (string_index : Nat) :
    (encodeRefs l string_index).2 = string_index + weight l := by
  induction l generalizing string_index with
  | nil => simp [encodeRefs, weight]
  | cons s rest ih =>
    simp only [encodeRefs, writeStrRef, weight_cons, refWeight]
    by_cases hs : s = []
    · subst hs
      simp [ih]
    · rw [if_pos hs, if_neg hs]
      simp only [ih]
      omega

theorem encodeRefs_fst_length (l : List Bytes) (string_index : Nat) :
    (encodeRefs l string_index).1.length = 4 * l.length := by
  induction l generalizing string_index with
  | nil => simp [encodeRefs]
  | cons s rest ih =>
    simp only [encodeRefs, List.length_append, ih, writeStrRef, List.length_cons]
    split <;> simp [u32le] <;> omega

/-- A well-formedness condition a Rust `String` value satisfies exactly
when the codec round-trips it: valid UTF-8 with no interior NUL. -/
def strOK (s : Bytes) : Prop := (0 : Nat) ∉ s ∧ isUtf8 s = true

instance (s : Bytes) : Decidable (strOK s) := by unfold strOK; infer_instance

/-- Reading back one emitted string reference: the emitted offset
resolves in the assembled string block to exactly the encoded string.
`done` are the non-empty-weighted slots already emitted, `todo` the
slots still to come; the cursor invariant is
`string_index = 1 + weight done`. -/
theorem get_string_as_vec_writeStrRef (s : Bytes) (done todo : List Bytes)
    (tail : Bytes) (h0 : (0 : Nat) ∉ s)
    (hb : 1 + weight done + refWeight s + weight todo < 2 ^ 32) :
    get_string_as_vec ((writeStrRef s (1 + weight done)).1 ++ tail)
      (0 :: refBlock (done ++ s :: todo)) = .ok (s, tail) := by
  by_cases hs : s = []
  · subst hs
    simp only [writeStrRef, ne_eq, not_true_eq_false, if_false, reduceIte,
      get_string_as_vec, readU32_u32le 0 tail (by norm_num)]
    rw [scanString_zero]
  · have hidx : 1 + weight done < 2 ^ 32 := by
      have := refWeight s
      omega
    simp only [writeStrRef, ne_eq, hs, not_false_eq_true, if_pos,
      Nat.mod_eq_of_lt hidx, get_string_as_vec,
      readU32_u32le (1 + weight done) tail hidx]
    have hblock : refBlock (done ++ s :: todo)
        = refBlock done ++ (s ++ 0 :: refBlock todo) := by
      rw [refBlock_append, refBlock_cons, if_neg hs]
      simp
    rw [hblock]
    have := scanString_at (refBlock done) s (refBlock todo) h0
    rw [refBlock_length] at this
    rw [this]

theorem writeStrRef_snd (s : Bytes) (string_index : Nat) :
    (writeStrRef s string_index).2 = string_index + refWeight s := by
  unfold writeStrRef refWeight
  by_cases hs : s = []
  · rw [if_neg (by simp [hs]), if_pos hs]
    simp
  · rw [if_pos hs, if_neg hs]
    simp [Nat.add_assoc]

/-- Round-trip of a run of consecutive string references: decoding the
bytes emitted by `encodeRefs` against the final string block recovers
the original slots.  `done` are the slots already traversed (fixing the
cursor invariant `string_index = 1 + weight done`), `todo` the slots
still to come. -/
theorem readNStrings_encodeRefs (cur : List Bytes) (done todo : List Bytes)
    (rest : Bytes) (hok : ∀ s ∈ cur, strOK s)
    (hb : 1 + weight done + weight cur + weight todo < 2 ^ 32) :
    readNStrings cur.length ((encodeRefs cur (1 + weight done)).1 ++ rest)
      (0 :: refBlock (done ++ cur ++ todo)) = .ok (cur, rest) := by
  induction cur generalizing done with
  | nil => simp [readNStrings, encodeRefs]
  | cons s cur' ih =>
    obtain ⟨h0, hutf⟩ := hok s (List.mem_cons_self s cur')
    have hb' : 1 + weight done + refWeight s + weight (cur' ++ todo) < 2 ^ 32 := by
      rw [weight_append]
      rw [weight_cons] at hb
      omega
    have hidx2 : (writeStrRef s (1 + weight done)).2 = 1 + weight (done ++ [s]) := by
      rw [writeStrRef_snd, weight_append, weight_cons, weight_nil]
      omega
    have hih := ih (done ++ [s])
      (fun x hx => hok x (List.mem_cons_of_mem s hx))
      (by
        rw [weight_append, weight_cons, weight_nil]
        rw [weight_cons] at hb
        omega)
    simp only [List.append_assoc, List.cons_append, List.singleton_append,
      List.nil_append] at hih
    simp only [encodeRefs, List.length_cons, readNStrings, List.append_assoc,
      List.cons_append]
    rw [hidx2]
    rw [get_string_as_vec_writeStrRef s done (cur' ++ todo) _ h0 hb']
    simp only [fromUtf8, hutf, if_true]
    rw [hih]

/-! ## Localized strings (`crate::LocalizedString`, `crate::ExtendedLocalizedString`) -/

/-- Modelled from the spec: the TBC/Wrath localized string holds 16
locale slots (each a `string_ref`) plus a `u32` flags word preserved
verbatim. -/
structure ExtendedLocalizedString where
  strings : List Bytes
  flags : Nat
  deriving DecidableEq, Repr

/-- Modelled from the spec: the Vanilla localized string holds 8 locale
slots plus a `u32` flags word. -/
structure LocalizedString where
  strings : List Bytes
  flags : Nat
  deriving DecidableEq, Repr

/-- Modelled from the spec:
`ExtendedLocalizedString::string_indices_as_array` applies the
`string_ref` rule to every locale slot in declared order (threading the
`string_index` cursor, which Rust passes by mutable reference) and then
emits the flags word verbatim; the new cursor value is returned
alongside the emitted bytes. -/
def ExtendedLocalizedString.string_indices_as_array
    (e : ExtendedLocalizedString) (string_index : Nat) : Bytes × Nat :=
  let p := encodeRefs e.strings string_index
  (p.1 ++ u32le e.flags, p.2)

/-- Modelled from the spec:
`ExtendedLocalizedString::string_block_as_array` appends
`bytes ++ [0]` for every non-empty locale slot in declared order. -/
def ExtendedLocalizedString.string_block_as_array
    (e : ExtendedLocalizedString) : Bytes :=
  refBlock e.strings

/-- Modelled from the spec:
`ExtendedLocalizedString::string_block_size` sums `len + 1` over the
non-empty locale slots. -/
def ExtendedLocalizedString.string_block_size
    (e : ExtendedLocalizedString) : Nat :=
  weight e.strings

/-- Modelled from the spec:
`crate::util::read_extended_localized_string` reads 16 consecutive
string references and then the `u32` flags word. -/
def read_extended_localized_string (chunk block : Bytes) :
    Except DbcError (ExtendedLocalizedString × Bytes) :=
  match readNStrings 16 chunk block with
  | .error e => .error e
  | .ok (ss, rest) =>
    match readU32 rest with
    | none => .error .ioError
    | some (fl, rest2) => .ok (⟨ss, fl⟩, rest2)

/-- The machine-representable states of an `ExtendedLocalizedString`:
exactly 16 locale slots and a 32-bit flags word. -/
def ExtendedLocalizedString.WF (e : ExtendedLocalizedString) : Prop :=
  e.strings.length = 16 ∧ e.flags < 2 ^ 32

instance (e : ExtendedLocalizedString) : Decidable e.WF := by
  unfold ExtendedLocalizedString.WF
  infer_instance

theorem string_indices_as_array_length (e : ExtendedLocalizedString)
    (string_index : Nat) (hWF : e.WF) :
    (e.string_indices_as_array string_index).1.length = 68 := by
  simp only [ExtendedLocalizedString.string_indices_as_array, List.length_append,
    encodeRefs_fst_length, u32le_length, hWF.1]

theorem string_indices_as_array_snd (e : ExtendedLocalizedString)
    (string_index : Nat) :
    (e.string_indices_as_array string_index).2
      = string_index + weight e.strings := by
  simp only [ExtendedLocalizedString.string_indices_as_array, encodeRefs_snd]

/-- Round-trip of one emitted `ExtendedLocalizedString` against the
final string block. -/
theorem read_extended_localized_string_round (e : ExtendedLocalizedString)
    (done todo : List Bytes) (rest : Bytes) (hWF : e.WF)
    (hok : ∀ s ∈ e.strings, strOK s)
    (hb : 1 + weight done + weight e.strings + weight todo < 2 ^ 32) :
    read_extended_localized_string
      ((e.string_indices_as_array (1 + weight done)).1 ++ rest)
      (0 :: refBlock (done ++ e.strings ++ todo)) = .ok (e, rest) := by
  have h16 : (16 : Nat) = e.strings.length := hWF.1.symm
  have hr := readNStrings_encodeRefs e.strings done todo (u32le e.flags ++ rest)
    hok hb
  rw [List.append_assoc] at hr
  simp only [ExtendedLocalizedString.string_indices_as_array,
    read_extended_localized_string, List.append_assoc, h16]
  rw [hr]
  simp only [readU32_u32le e.flags rest hWF.2]

/-! ## Record chunking (`slice::chunks`) -/

/-- Fuel-indexed worker for `chunksOf`; the fuel (initially the list
length) only serves structural termination and never runs out for a
positive chunk size. -/
def chunksGo (n : Nat) : Nat → Bytes → List Bytes
  | 0, _ => []
  | _, [] => []
  | fuel + 1, l => l.take n :: chunksGo n fuel (l.drop n)

/-- `slice::chunks(n)` over a byte list: consecutive chunks of `n`
bytes, the last possibly shorter. -/
def chunksOf (n : Nat) (l : Bytes) : List Bytes := chunksGo n l.length l

theorem chunksGo_nil (n fuel : Nat) : chunksGo n fuel [] = [] := by
  cases fuel <;> rfl

theorem chunksGo_congr (n : Nat) (hn : 0 < n) (fuel1 : Nat) :
    ∀ fuel2 l, l.length ≤ fuel1 → l.length ≤ fuel2 →
      chunksGo n fuel1 l = chunksGo n fuel2 l := by
  induction fuel1 with
  | zero =>
    intro fuel2 l h1 h2
    have : l = [] := List.eq_nil_of_length_eq_zero (Nat.le_zero.mp h1)
    subst this
    rw [chunksGo_nil, chunksGo_nil]
  | succ f1 ih =>
    intro fuel2 l h1 h2
    match l, fuel2 with
    | [], _ => rw [chunksGo_nil, chunksGo_nil]
    | b :: bs, 0 => simp at h2
    | b :: bs, f2 + 1 =>
      simp only [chunksGo]
      refine congrArg _ (ih f2 ((b :: bs).drop n) ?_ ?_) <;>
        (simp only [List.length_drop, List.length_cons] at *; omega)

theorem chunksOf_append (n : Nat) (l rest : Bytes) (hn : 0 < n)
    (hl : l.length = n) :
    chunksOf n (l ++ rest) = l :: chunksOf n rest := by
  cases l with
  | nil =>
    rw [List.length_nil] at hl
    omega
  | cons b bs =>
    have h1 : chunksOf n ((b :: bs) ++ rest)
        = chunksGo n (bs.length + rest.length + 1) (b :: (bs ++ rest)) := by
      unfold chunksOf
      have hlen : ((b :: bs) ++ rest).length = bs.length + rest.length + 1 := by
        simp
      rw [hlen]
      rfl
    rw [h1]
    simp only [chunksGo]
    have hcons : (b : Nat) :: (bs ++ rest) = (b :: bs) ++ rest := rfl
    have htake : (b :: (bs ++ rest)).take n = b :: bs := by
      rw [hcons, ← hl, List.take_left]
    have hdrop : (b :: (bs ++ rest)).drop n = rest := by
      rw [hcons, ← hl, List.drop_left]
    rw [htake, hdrop]
    refine congrArg _ ?_
    unfold chunksOf
    exact chunksGo_congr n hn (bs.length + rest.length) rest.length rest
      (by omega) (le_refl _)

/-! ## `tbc_tables::lock_type` -/

/-- `LockTypeKey`: newtype over the `i32` primary key. -/
structure LockTypeKey where
  id : Int
  deriving DecidableEq, Repr

/-- `LockTypeKey::new`. -/
def LockTypeKey.new (id : Int) : LockTypeKey := ⟨id⟩

/-- One row of `LockType.dbc`. -/
structure LockTypeRow where
  id : LockTypeKey
  name_lang : ExtendedLocalizedString
  resource_name_lang : ExtendedLocalizedString
  verb_lang : ExtendedLocalizedString
  cursor_name : Bytes
  deriving DecidableEq, Repr

/-- The `LockType` table: an ordered sequence of rows. -/
structure LockType where
  rows : List LockTypeRow
  deriving DecidableEq, Repr

def LockType.FIELD_COUNT : Nat := 53

def LockType.ROW_SIZE : Nat := 212

/-- `crate::util::read_i32_le` with the premature-end error of the
generated read bodies. -/
def readI32E (b : Bytes) : Except DbcError (Int × Bytes) :=
  match readI32 b with
  | none => .error .ioError
  | some p => .ok p

/-- The per-record decode sequence of `LockType::read`: primary key,
three extended localized strings, one `string_ref`.  Any bytes of the
chunk beyond the last field are ignored, as in the Rust code. -/
def LockTypeRow.readRow (chunk block : Bytes) : Except DbcError LockTypeRow :=
  match readI32E chunk with
  | .error e => .error e
  | .ok (idv, c1) =>
    match read_extended_localized_string c1 block with
    | .error e => .error e
    | .ok (name_lang, c2) =>
      match read_extended_localized_string c2 block with
      | .error e => .error e
      | .ok (resource_name_lang, c3) =>
        match read_extended_localized_string c3 block with
        | .error e => .error e
        | .ok (verb_lang, c4) =>
          match get_string_as_vec c4 block with
          | .error e => .error e
          | .ok (sv, _c5) =>
            match fromUtf8 sv with
            | .error e => .error e
            | .ok cursor_name =>
              .ok ⟨LockTypeKey.new idv, name_lang, resource_name_lang,
                   verb_lang, cursor_name⟩

/-- The record loop of `LockType::read` over the chunks of the record
region. -/
def LockType.readRows (chunks : List Bytes) (block : Bytes) :
    Except DbcError (List LockTypeRow) :=
  match chunks with
  | [] => .ok []
  | c :: cs =>
    match LockTypeRow.readRow c block with
    | .error e => .error e
    | .ok r =>
      match LockType.readRows cs block with
      | .error e => .error e
      | .ok rs => .ok (r :: rs)

/-- `LockType::read`.  The record-region size is the `u32` product
`record_count * record_size` (wrapping on overflow, as the release-mode
Rust multiplication does); the function returns the decoded table and
the unread remainder of the stream. -/
def LockType.read (input : Bytes) : Except DbcError (LockType × Bytes) :=
  if input.length < 20 then .error .ioError
  else
    match parse_header (input.take 20) with
    | .error e => .error e
    | .ok header =>
      if header.record_size ≠ LockType.ROW_SIZE then
        .error (.invalidHeader (.recordSize LockType.ROW_SIZE header.record_size))
      else if header.field_count ≠ LockType.FIELD_COUNT then
        .error (.invalidHeader (.fieldCount LockType.FIELD_COUNT header.field_count))
      else
        let n := header.record_count * header.record_size % 2 ^ 32
        let rest := input.drop 20
        if rest.length < n then .error .ioError
        else
          let r := rest.take n
          let rest2 := rest.drop n
          if rest2.length < header.string_block_size then .error .ioError
          else
            let string_block := rest2.take header.string_block_size
            match LockType.readRows (chunksOf header.record_size r) string_block with
            | .error e => .error e
            | .ok rows => .ok (⟨rows⟩, rest2.drop header.string_block_size)

/-- The per-record encode sequence of `LockType::write`, threading the
`string_index` cursor. -/
def LockTypeRow.writeRow (r : LockTypeRow) (string_index : Nat) : Bytes × Nat :=
  let b0 := i32le r.id.id
  let p1 := r.name_lang.string_indices_as_array string_index
  let p2 := r.resource_name_lang.string_indices_as_array p1.2
  let p3 := r.verb_lang.string_indices_as_array p2.2
  let p4 :=
    if r.cursor_name ≠ [] then
      (u32le (p3.2 % 2 ^ 32), p3.2 + r.cursor_name.length + 1)
    else (u32le 0, p3.2)
  (b0 ++ p1.1 ++ p2.1 ++ p3.1 ++ p4.1, p4.2)

/-- The row loop of `LockType::write` (cursor initialized to 1 by the
caller). -/
def LockType.writeRows : List LockTypeRow → Nat → Bytes
  | [], _ => []
  | r :: rs, string_index =>
    let p := r.writeRow string_index
    p.1 ++ LockType.writeRows rs p.2

/-- The string-block bytes one row contributes in
`LockType::write_string_block`. -/
def LockTypeRow.blockBytes (r : LockTypeRow) : Bytes :=
  r.name_lang.string_block_as_array ++ r.resource_name_lang.string_block_as_array
    ++ r.verb_lang.string_block_as_array
    ++ (if r.cursor_name = [] then [] else r.cursor_name ++ [0])

/-- `LockType::write_string_block`: the sentinel NUL, then every row's
contribution in row order. -/
def LockType.write_string_block (t : LockType) : Bytes :=
  0 :: t.rows.flatMap LockTypeRow.blockBytes

/-- The summand one row contributes in `LockType::string_block_size`. -/
def LockTypeRow.blockWeight (r : LockTypeRow) : Nat :=
  r.name_lang.string_block_size + r.resource_name_lang.string_block_size
    + r.verb_lang.string_block_size
    + (if r.cursor_name = [] then 0 else r.cursor_name.length + 1)

/-- The mathematical value of `LockType::string_block_size` before the
`as u32` cast. -/
def LockType.string_block_sizeNat (t : LockType) : Nat :=
  1 + (t.rows.map LockTypeRow.blockWeight).sum

/-- `LockType::string_block_size` (the Rust function casts the `usize`
sum with `as u32`, truncating). -/
def LockType.string_block_size (t : LockType) : Nat :=
  t.string_block_sizeNat % 2 ^ 32

/-- `LockType::write`: header (with `record_count = rows.len() as u32`),
record region, string block. -/
def LockType.write (t : LockType) : Bytes :=
  DbcHeader.write_header
      ⟨t.rows.length % 2 ^ 32, LockType.FIELD_COUNT, 212, t.string_block_size⟩
    ++ LockType.writeRows t.rows 1 ++ t.write_string_block

/-- All string slots of one row in declared traversal order. -/
def LockTypeRow.strSlots (r : LockTypeRow) : List Bytes :=
  r.name_lang.strings ++ r.resource_name_lang.strings ++ r.verb_lang.strings
    ++ [r.cursor_name]

/-- The machine-representable states of a `LockTypeRow`: an `i32`
primary key and well-formed localized strings. -/
def LockTypeRow.WF (r : LockTypeRow) : Prop :=
  -2 ^ 31 ≤ r.id.id ∧ r.id.id < 2 ^ 31 ∧ r.name_lang.WF
    ∧ r.resource_name_lang.WF ∧ r.verb_lang.WF

instance (r : LockTypeRow) : Decidable r.WF := by
  unfold LockTypeRow.WF
  infer_instance

/-- Every string of the row round-trips: valid UTF-8, no interior NUL. -/
def LockTypeRow.strsOK (r : LockTypeRow) : Prop := ∀ s ∈ r.strSlots, strOK s

instance (r : LockTypeRow) : Decidable r.strsOK := by
  unfold LockTypeRow.strsOK
  infer_instance

theorem readI32E_i32le (x : Int) (rest : Bytes)
    (h1 : -2 ^ 31 ≤ x) (h2 : x < 2 ^ 31) :
    readI32E (i32le x ++ rest) = .ok (x, rest) := by
  unfold readI32E
  rw [readI32_i32le x rest h1 h2]

theorem get_string_as_vec_writeStrRef2 (s : Bytes) (done todo : List Bytes)
    (h0 : (0 : Nat) ∉ s)
    (hb : 1 + weight done + refWeight s + weight todo < 2 ^ 32) :
    get_string_as_vec ((writeStrRef s (1 + weight done)).1)
      (0 :: refBlock (done ++ s :: todo)) = .ok (s, []) := by
  have h := get_string_as_vec_writeStrRef s done todo [] h0 hb
  rwa [List.append_nil] at h

theorem LockTypeRow.writeRow_length (r : LockTypeRow) (string_index : Nat)
    (hWF : r.WF) : (r.writeRow string_index).1.length = 212 := by
  obtain ⟨-, -, h1, h2, h3⟩ := hWF
  simp only [LockTypeRow.writeRow, List.length_append, i32le_length,
    string_indices_as_array_length _ _ h1, string_indices_as_array_length _ _ h2,
    string_indices_as_array_length _ _ h3]
  by_cases hc : r.cursor_name = [] <;> simp [hc, u32le_length]

theorem LockTypeRow.writeRow_snd (r : LockTypeRow) (string_index : Nat) :
    (r.writeRow string_index).2 = string_index + weight r.strSlots := by
  simp only [LockTypeRow.writeRow, LockTypeRow.strSlots, weight_append,
    string_indices_as_array_snd, weight_cons, weight_nil]
  by_cases hc : r.cursor_name = []
  · rw [if_neg (by simp [hc])]
    simp [refWeight, hc]
    omega
  · rw [if_pos hc]
    simp [refWeight, hc]
    omega

theorem LockTypeRow.lock_blockBytes_eq (r : LockTypeRow) :
    r.blockBytes = refBlock r.strSlots := by
  simp only [LockTypeRow.blockBytes, LockTypeRow.strSlots, refBlock_append,
    ExtendedLocalizedString.string_block_as_array, refBlock_cons, refBlock_nil,
    List.append_nil]

theorem LockTypeRow.lock_blockWeight_eq (r : LockTypeRow) :
    r.blockWeight = weight r.strSlots := by
  simp only [LockTypeRow.blockWeight, LockTypeRow.strSlots, weight_append,
    ExtendedLocalizedString.string_block_size, weight_cons, weight_nil, refWeight]
  omega

theorem LockType.writeRows_length (rows : List LockTypeRow) (string_index : Nat)
    (hWF : ∀ r ∈ rows, r.WF) :
    (LockType.writeRows rows string_index).length = 212 * rows.length := by
  induction rows generalizing string_index with
  | nil => simp [LockType.writeRows]
  | cons r rs ih =>
    simp only [LockType.writeRows, List.length_append, List.length_cons]
    rw [LockTypeRow.writeRow_length r _ (hWF r (List.mem_cons_self r rs)),
      ih _ (fun x hx => hWF x (List.mem_cons_of_mem r hx))]
    ring

theorem LockType.lock_flatMap_blockBytes (rows : List LockTypeRow) :
    rows.flatMap LockTypeRow.blockBytes
      = refBlock (rows.flatMap LockTypeRow.strSlots) := by
  induction rows with
  | nil => rfl
  | cons r rs ih =>
    simp only [List.flatMap_cons, refBlock_append, ih, LockTypeRow.lock_blockBytes_eq]

theorem LockType.sum_blockWeight (rows : List LockTypeRow) :
    (rows.map LockTypeRow.blockWeight).sum
      = weight (rows.flatMap LockTypeRow.strSlots) := by
  induction rows with
  | nil => rfl
  | cons r rs ih =>
    simp only [List.map_cons, List.sum_cons, List.flatMap_cons, weight_append, ih,
      LockTypeRow.lock_blockWeight_eq]

theorem LockType.lock_string_block_sizeNat_eq (t : LockType) :
    t.string_block_sizeNat
      = 1 + weight (t.rows.flatMap LockTypeRow.strSlots) := by
  unfold LockType.string_block_sizeNat
  rw [LockType.sum_blockWeight]

theorem LockType.lock_write_string_block_eq (t : LockType) :
    t.write_string_block
      = 0 :: refBlock (t.rows.flatMap LockTypeRow.strSlots) := by
  unfold LockType.write_string_block
  rw [LockType.lock_flatMap_blockBytes]

theorem LockType.write_string_block_length (t : LockType) :
    t.write_string_block.length = t.string_block_sizeNat := by
  rw [LockType.lock_write_string_block_eq, LockType.lock_string_block_sizeNat_eq]
  simp [refBlock_length]
  omega

/-- Round-trip of one `LockType` record against the final string block:
reading back the bytes `writeRow` emitted recovers the row, under the
cursor invariant `string_index = 1 + weight done`. -/
theorem LockTypeRow.readRow_writeRow (r : LockTypeRow) (done todo : List Bytes)
    (hWF : r.WF) (hok : r.strsOK)
    (hb : 1 + weight done + weight r.strSlots + weight todo < 2 ^ 32) :
    LockTypeRow.readRow ((r.writeRow (1 + weight done)).1)
      (0 :: refBlock (done ++ r.strSlots ++ todo)) = .ok r := by
  obtain ⟨hid1, hid2, hWF1, hWF2, hWF3⟩ := hWF
  have hok1 : ∀ s ∈ r.name_lang.strings, strOK s := fun s hs =>
    hok s (by simp only [LockTypeRow.strSlots, List.mem_append]; tauto)
  have hok2 : ∀ s ∈ r.resource_name_lang.strings, strOK s := fun s hs =>
    hok s (by simp only [LockTypeRow.strSlots, List.mem_append]; tauto)
  have hok3 : ∀ s ∈ r.verb_lang.strings, strOK s := fun s hs =>
    hok s (by simp only [LockTypeRow.strSlots, List.mem_append]; tauto)
  have hokc : strOK r.cursor_name :=
    hok r.cursor_name
      (by simp only [LockTypeRow.strSlots, List.mem_append, List.mem_singleton]; tauto)
  have hbe : weight r.strSlots = weight r.name_lang.strings
      + (weight r.resource_name_lang.strings
        + (weight r.verb_lang.strings + refWeight r.cursor_name)) := by
    simp only [LockTypeRow.strSlots, weight_append, weight_cons, weight_nil]
    omega
  have hb1 : 1 + weight done + weight r.name_lang.strings
      + weight (r.resource_name_lang.strings
        ++ (r.verb_lang.strings ++ (r.cursor_name :: todo))) < 2 ^ 32 := by
    simp only [weight_append, weight_cons]
    omega
  have hb2 : 1 + weight (done ++ r.name_lang.strings)
      + weight r.resource_name_lang.strings
      + weight (r.verb_lang.strings ++ (r.cursor_name :: todo)) < 2 ^ 32 := by
    simp only [weight_append, weight_cons]
    omega
  have hb3 : 1 + weight (done ++ (r.name_lang.strings ++ r.resource_name_lang.strings))
      + weight r.verb_lang.strings + weight (r.cursor_name :: todo) < 2 ^ 32 := by
    simp only [weight_append, weight_cons]
    omega
  have hb4 : 1 + weight (done ++ (r.name_lang.strings
        ++ (r.resource_name_lang.strings ++ r.verb_lang.strings)))
      + refWeight r.cursor_name + weight todo < 2 ^ 32 := by
    simp only [weight_append]
    omega
  have c1 : (r.name_lang.string_indices_as_array (1 + weight done)).2
      = 1 + weight (done ++ r.name_lang.strings) := by
    rw [string_indices_as_array_snd]
    simp only [weight_append]
    omega
  have c2 : (r.resource_name_lang.string_indices_as_array
        (1 + weight (done ++ r.name_lang.strings))).2
      = 1 + weight (done ++ (r.name_lang.strings ++ r.resource_name_lang.strings)) := by
    rw [string_indices_as_array_snd]
    simp only [weight_append]
    omega
  have c3 : (r.verb_lang.string_indices_as_array
        (1 + weight (done ++ (r.name_lang.strings ++ r.resource_name_lang.strings)))).2
      = 1 + weight (done ++ (r.name_lang.strings
          ++ (r.resource_name_lang.strings ++ r.verb_lang.strings))) := by
    rw [string_indices_as_array_snd]
    simp only [weight_append]
    omega
  have E1 : ∀ tail, read_extended_localized_string
      ((r.name_lang.string_indices_as_array (1 + weight done)).1 ++ tail)
      (0 :: refBlock (done ++ (r.strSlots ++ todo))) = .ok (r.name_lang, tail) := by
    intro tail
    have h := read_extended_localized_string_round r.name_lang done
      (r.resource_name_lang.strings ++ (r.verb_lang.strings ++ (r.cursor_name :: todo)))
      tail hWF1 hok1 hb1
    have hl : done ++ r.name_lang.strings
        ++ (r.resource_name_lang.strings
          ++ (r.verb_lang.strings ++ (r.cursor_name :: todo)))
        = done ++ (r.strSlots ++ todo) := by
      simp [LockTypeRow.strSlots]
    rwa [hl] at h
  have E2 : ∀ tail, read_extended_localized_string
      ((r.resource_name_lang.string_indices_as_array
        (1 + weight (done ++ r.name_lang.strings))).1 ++ tail)
      (0 :: refBlock (done ++ (r.strSlots ++ todo)))
      = .ok (r.resource_name_lang, tail) := by
    intro tail
    have h := read_extended_localized_string_round r.resource_name_lang
      (done ++ r.name_lang.strings)
      (r.verb_lang.strings ++ (r.cursor_name :: todo)) tail hWF2 hok2 hb2
    have hl : done ++ r.name_lang.strings ++ r.resource_name_lang.strings
        ++ (r.verb_lang.strings ++ (r.cursor_name :: todo))
        = done ++ (r.strSlots ++ todo) := by
      simp [LockTypeRow.strSlots]
    rwa [hl] at h
  have E3 : ∀ tail, read_extended_localized_string
      ((r.verb_lang.string_indices_as_array
        (1 + weight (done ++ (r.name_lang.strings
          ++ r.resource_name_lang.strings)))).1 ++ tail)
      (0 :: refBlock (done ++ (r.strSlots ++ todo)))
      = .ok (r.verb_lang, tail) := by
    intro tail
    have h := read_extended_localized_string_round r.verb_lang
      (done ++ (r.name_lang.strings ++ r.resource_name_lang.strings))
      (r.cursor_name :: todo) tail hWF3 hok3 hb3
    have hl : done ++ (r.name_lang.strings ++ r.resource_name_lang.strings)
        ++ r.verb_lang.strings ++ (r.cursor_name :: todo)
        = done ++ (r.strSlots ++ todo) := by
      simp [LockTypeRow.strSlots]
    rwa [hl] at h
  have E4 : get_string_as_vec
      ((writeStrRef r.cursor_name
        (1 + weight (done ++ (r.name_lang.strings
          ++ (r.resource_name_lang.strings ++ r.verb_lang.strings))))).1)
      (0 :: refBlock (done ++ (r.strSlots ++ todo))) = .ok (r.cursor_name, []) := by
    have h := get_string_as_vec_writeStrRef2 r.cursor_name
      (done ++ (r.name_lang.strings
        ++ (r.resource_name_lang.strings ++ r.verb_lang.strings))) todo hokc.1 hb4
    have hl : done ++ (r.name_lang.strings
          ++ (r.resource_name_lang.strings ++ r.verb_lang.strings))
        ++ (r.cursor_name :: todo)
        = done ++ (r.strSlots ++ todo) := by
      simp [LockTypeRow.strSlots]
    rwa [hl] at h
  have E5 : fromUtf8 r.cursor_name = .ok r.cursor_name := by
    unfold fromUtf8
    rw [if_pos hokc.2]
  have E0 : ∀ tail, readI32E (i32le r.id.id ++ tail) = .ok (r.id.id, tail) :=
    fun tail => readI32E_i32le r.id.id tail hid1 hid2
  have hw : ∀ (s : Bytes) (idx : Nat),
      (if s ≠ [] then (u32le (idx % 2 ^ 32), idx + s.length + 1)
       else (u32le 0, idx)) = writeStrRef s idx := fun s idx => rfl
  simp only [LockTypeRow.readRow, LockTypeRow.writeRow, hw, List.append_assoc,
    E0, c1, c2, c3, E1, E2, E3, E4, E5]
  rfl

/-- Round-trip of the whole record region: reading the chunks of the
emitted record bytes against the final string block recovers the rows. -/
theorem LockType.readRows_writeRows (rows : List LockTypeRow)
    (done : List Bytes)
    (hWF : ∀ r ∈ rows, r.WF) (hok : ∀ r ∈ rows, r.strsOK)
    (hb : 1 + weight done + weight (rows.flatMap LockTypeRow.strSlots) < 2 ^ 32) :
    LockType.readRows (chunksOf 212 (LockType.writeRows rows (1 + weight done)))
      (0 :: refBlock (done ++ rows.flatMap LockTypeRow.strSlots)) = .ok rows := by
  induction rows generalizing done with
  | nil => simp [LockType.readRows, LockType.writeRows, chunksOf, chunksGo]
  | cons r rs ih =>
    have hWFr := hWF r (List.mem_cons_self r rs)
    have hokr := hok r (List.mem_cons_self r rs)
    have hflat : (r :: rs).flatMap LockTypeRow.strSlots
        = r.strSlots ++ rs.flatMap LockTypeRow.strSlots := by
      simp
    have hbr : 1 + weight done + weight r.strSlots
        + weight (rs.flatMap LockTypeRow.strSlots) < 2 ^ 32 := by
      rw [hflat, weight_append] at hb
      omega
    have hrow := LockTypeRow.readRow_writeRow r done
      (rs.flatMap LockTypeRow.strSlots) hWFr hokr hbr
    have hcur : (r.writeRow (1 + weight done)).2
        = 1 + weight (done ++ r.strSlots) := by
      rw [LockTypeRow.writeRow_snd, weight_append]
      omega
    have hih := ih (done ++ r.strSlots)
      (fun x hx => hWF x (List.mem_cons_of_mem r hx))
      (fun x hx => hok x (List.mem_cons_of_mem r hx))
      (by
        rw [hflat, weight_append] at hb
        rw [weight_append]
        omega)
    have hchunk := chunksOf_append 212 ((r.writeRow (1 + weight done)).1)
      (LockType.writeRows rs (1 + weight (done ++ r.strSlots)))
      (by norm_num) (LockTypeRow.writeRow_length r _ hWFr)
    simp only [List.append_assoc] at hrow hih hchunk ⊢
    rw [hflat]
    simp only [LockType.writeRows, hcur, List.append_assoc]
    rw [hchunk]
    simp only [LockType.readRows]
    rw [hrow, hih]

/-- Behavior of `LockType::read` on a well-formed decomposed stream: it
consumes exactly the 20 header bytes, the (`u32`-wrapped)
`record_count * record_size` record bytes and the `string_block_size`
string-block bytes, leaves any trailing bytes unread, and returns them
as the remainder. -/
theorem LockType.lock_read_decomposed (hdrB recs blockB rest : Bytes)
    (hdr : DbcHeader) (rows : List LockTypeRow)
    (hparse : parse_header hdrB = .ok hdr)
    (hhlen : hdrB.length = 20)
    (hrs : hdr.record_size = 212)
    (hfc : hdr.field_count = 53)
    (hrecs : recs.length = hdr.record_count * hdr.record_size % 2 ^ 32)
    (hblock : blockB.length = hdr.string_block_size)
    (hrows : LockType.readRows (chunksOf hdr.record_size recs) blockB = .ok rows) :
    LockType.read (hdrB ++ (recs ++ (blockB ++ rest))) = .ok (⟨rows⟩, rest) := by
  have h20 : (hdrB ++ (recs ++ (blockB ++ rest))).take 20 = hdrB := by
    rw [← hhlen]
    exact List.take_left _ _
  have hd20 : (hdrB ++ (recs ++ (blockB ++ rest))).drop 20
      = recs ++ (blockB ++ rest) := by
    rw [← hhlen]
    exact List.drop_left _ _
  have hnotlt : ¬ (hdrB ++ (recs ++ (blockB ++ rest))).length < 20 := by
    simp [List.length_append, hhlen]
  have htakerecs : (recs ++ (blockB ++ rest)).take
      (hdr.record_count * hdr.record_size % 2 ^ 32) = recs := by
    rw [← hrecs]
    exact List.take_left _ _
  have hdroprecs : (recs ++ (blockB ++ rest)).drop
      (hdr.record_count * hdr.record_size % 2 ^ 32) = blockB ++ rest := by
    rw [← hrecs]
    exact List.drop_left _ _
  have hnotlt2 : ¬ (recs ++ (blockB ++ rest)).length
      < hdr.record_count * hdr.record_size % 2 ^ 32 := by
    rw [← hrecs]
    simp [List.length_append]
  have htakeblock : (blockB ++ rest).take hdr.string_block_size = blockB := by
    rw [← hblock]
    exact List.take_left _ _
  have hdropblock : (blockB ++ rest).drop hdr.string_block_size = rest := by
    rw [← hblock]
    exact List.drop_left _ _
  have hnotlt3 : ¬ (blockB ++ rest).length < hdr.string_block_size := by
    rw [← hblock]
    simp [List.length_append]
  unfold LockType.read
  rw [if_neg hnotlt, h20, hparse]
  simp only [hd20, htakerecs, hdroprecs, htakeblock, hdropblock, hnotlt2, hnotlt3,
    hrs, hfc, LockType.ROW_SIZE, LockType.FIELD_COUNT, ne_eq, not_true_eq_false,
    if_false, ite_false, not_false_eq_true, hrows]
  rw [hrs] at htakerecs hdroprecs hrows hnotlt2
  rw [htakerecs, hdroprecs, htakeblock, hrows, hdropblock]
  rw [if_neg hnotlt2, if_neg hnotlt3]

/-- The size hypotheses under which a `LockType` value is faithfully
representable in the on-disk `u32` header fields. -/
def LockType.sizesOK (t : LockType) : Prop :=
  t.rows.length * 212 < 2 ^ 32 ∧ t.string_block_sizeNat < 2 ^ 32

instance (t : LockType) : Decidable t.sizesOK := by
  unfold LockType.sizesOK
  infer_instance

/-- `LockType` write-then-read round trip (strings NUL-free and valid
UTF-8, sizes within `u32`). -/
theorem LockType.lock_read_write (t : LockType)
    (hWF : ∀ r ∈ t.rows, r.WF) (hok : ∀ r ∈ t.rows, r.strsOK)
    (hsz : t.rows.length * 212 < 2 ^ 32)
    (hsb : t.string_block_sizeNat < 2 ^ 32) :
    LockType.read (LockType.write t) = .ok (t, []) := by
  have hL : t.rows.length % 2 ^ 32 = t.rows.length :=
    Nat.mod_eq_of_lt (by omega)
  have hsbs : t.string_block_size = t.string_block_sizeNat :=
    Nat.mod_eq_of_lt hsb
  have hwrite : LockType.write t
      = DbcHeader.write_header
          ⟨t.rows.length % 2 ^ 32, LockType.FIELD_COUNT, 212, t.string_block_size⟩
        ++ (LockType.writeRows t.rows 1 ++ (t.write_string_block ++ [])) := by
    simp [LockType.write, List.append_assoc]
  have hparse : parse_header (DbcHeader.write_header
      ⟨t.rows.length % 2 ^ 32, LockType.FIELD_COUNT, 212, t.string_block_size⟩)
      = .ok ⟨t.rows.length % 2 ^ 32, LockType.FIELD_COUNT, 212,
             t.string_block_size⟩ := by
    have h := parse_header_write_header
      ⟨t.rows.length % 2 ^ 32, LockType.FIELD_COUNT, 212, t.string_block_size⟩ []
      (by exact Nat.mod_lt _ (by norm_num)) (by norm_num [LockType.FIELD_COUNT])
      (by norm_num) (by rw [hsbs]; exact hsb)
    rwa [List.append_nil] at h
  have hrecs : (LockType.writeRows t.rows 1).length
      = (t.rows.length % 2 ^ 32) * 212 % 2 ^ 32 := by
    rw [LockType.writeRows_length t.rows 1 hWF, hL,
      Nat.mod_eq_of_lt (by omega : t.rows.length * 212 < 2 ^ 32)]
    ring
  have hblock : t.write_string_block.length = t.string_block_size := by
    rw [LockType.write_string_block_length, hsbs]
  have hrows : LockType.readRows (chunksOf 212 (LockType.writeRows t.rows 1))
      t.write_string_block = .ok t.rows := by
    have h := LockType.readRows_writeRows t.rows []
      hWF hok
      (by
        have := LockType.lock_string_block_sizeNat_eq t
        simp only [weight_nil]
        omega)
    simp only [weight_nil, List.nil_append] at h
    rw [LockType.lock_write_string_block_eq]
    exact h
  rw [hwrite]
  have hfinal := LockType.lock_read_decomposed
    (DbcHeader.write_header
      ⟨t.rows.length % 2 ^ 32, LockType.FIELD_COUNT, 212, t.string_block_size⟩)
    (LockType.writeRows t.rows 1) t.write_string_block []
    ⟨t.rows.length % 2 ^ 32, LockType.FIELD_COUNT, 212, t.string_block_size⟩
    t.rows hparse (write_header_length _) rfl rfl hrecs hblock hrows
  exact hfinal

instance {ε α : Type} [DecidableEq ε] [DecidableEq α] :
    DecidableEq (Except ε α) := fun a b =>
  match a, b with
  | .ok x, .ok y =>
    if h : x = y then isTrue (by rw [h]) else
      isFalse (fun hc => h (Except.ok.inj hc))
  | .error x, .error y =>
    if h : x = y then isTrue (by rw [h]) else
      isFalse (fun hc => h (Except.error.inj hc))
  | .ok _, .error _ => isFalse (fun hc => Except.noConfusion hc)
  | .error _, .ok _ => isFalse (fun hc => Except.noConfusion hc)

/-! ## `wrath_tables::gt_chance_to_spell_crit_base` -/

/-- One row of `gtChanceToSpellCritBase.dbc`.  The single `f32` field is
modelled by its 32-bit IEEE-754 bit pattern; the codec only moves the
four bytes verbatim. -/
structure gtChanceToSpellCritBaseRow where
  data : Nat
  deriving DecidableEq, Repr

/-- The `gtChanceToSpellCritBase` table. -/
structure gtChanceToSpellCritBase where
  rows : List gtChanceToSpellCritBaseRow
  deriving DecidableEq, Repr

def gtChanceToSpellCritBase.FIELD_COUNT : Nat := 1

def gtChanceToSpellCritBase.ROW_SIZE : Nat := 4

/-- Modelled from the spec: `crate::util::read_f32_le` reads four bytes
little-endian; the value is kept as its bit pattern. -/
def readF32E (b : Bytes) : Except DbcError (Nat × Bytes) :=
  match readU32 b with
  | none => .error .ioError
  | some p => .ok p

/-- The record loop of `gtChanceToSpellCritBase::read`. -/
def gtChanceToSpellCritBase.readRows (chunks : List Bytes) :
    Except DbcError (List gtChanceToSpellCritBaseRow) :=
  match chunks with
  | [] => .ok []
  | c :: cs =>
    match readF32E c with
    | .error e => .error e
    | .ok (data, _) =>
      match gtChanceToSpellCritBase.readRows cs with
      | .error e => .error e
      | .ok rs => .ok (⟨data⟩ :: rs)

/-- `gtChanceToSpellCritBase::read`.  Note that this generated `read`
never reads the string block: the table has no string fields, so the
stream is only consumed up to the end of the record region. -/
def gtChanceToSpellCritBase.read (input : Bytes) :
    Except DbcError (gtChanceToSpellCritBase × Bytes) :=
  if input.length < 20 then .error .ioError
  else
    match parse_header (input.take 20) with
    | .error e => .error e
    | .ok header =>
      if header.record_size ≠ gtChanceToSpellCritBase.ROW_SIZE then
        .error (.invalidHeader
          (.recordSize gtChanceToSpellCritBase.ROW_SIZE header.record_size))
      else if header.field_count ≠ gtChanceToSpellCritBase.FIELD_COUNT then
        .error (.invalidHeader
          (.fieldCount gtChanceToSpellCritBase.FIELD_COUNT header.field_count))
      else
        let n := header.record_count * header.record_size % 2 ^ 32
        let rest := input.drop 20
        if rest.length < n then .error .ioError
        else
          match gtChanceToSpellCritBase.readRows
              (chunksOf header.record_size (rest.take n)) with
          | .error e => .error e
          | .ok rows => .ok (⟨rows⟩, rest.drop n)

/-- `gtChanceToSpellCritBase::write`: header with
`string_block_size = 1`, the `f32` records, then the single sentinel
NUL byte. -/
def gtChanceToSpellCritBase.write (t : gtChanceToSpellCritBase) : Bytes :=
  DbcHeader.write_header
      ⟨t.rows.length % 2 ^ 32, gtChanceToSpellCritBase.FIELD_COUNT, 4, 1⟩
    ++ t.rows.flatMap (fun r => u32le r.data) ++ [0]

theorem readF32E_u32le (d : Nat) (h : d < 2 ^ 32) :
    readF32E (u32le d) = .ok (d, []) := by
  unfold readF32E
  have hr := readU32_u32le d [] h
  rw [List.append_nil] at hr
  rw [hr]

/-- Behavior of `gtChanceToSpellCritBase::read` on a decomposed stream:
the record-region size is the `u32`-wrapped product
`record_count * record_size`, and nothing after the record region is
consumed (in particular the string block is left unread). -/
theorem gtChanceToSpellCritBase.gt_read_decomposed (hdrB recs rest : Bytes)
    (hdr : DbcHeader) (rows : List gtChanceToSpellCritBaseRow)
    (hparse : parse_header hdrB = .ok hdr)
    (hhlen : hdrB.length = 20)
    (hrs : hdr.record_size = 4)
    (hfc : hdr.field_count = 1)
    (hrecs : recs.length = hdr.record_count * hdr.record_size % 2 ^ 32)
    (hrows : gtChanceToSpellCritBase.readRows (chunksOf hdr.record_size recs)
      = .ok rows) :
    gtChanceToSpellCritBase.read (hdrB ++ (recs ++ rest)) = .ok (⟨rows⟩, rest) := by
  have h20 : (hdrB ++ (recs ++ rest)).take 20 = hdrB := by
    rw [← hhlen]
    exact List.take_left _ _
  have hd20 : (hdrB ++ (recs ++ rest)).drop 20 = recs ++ rest := by
    rw [← hhlen]
    exact List.drop_left _ _
  have hnotlt : ¬ (hdrB ++ (recs ++ rest)).length < 20 := by
    simp [List.length_append, hhlen]
  have htakerecs : (recs ++ rest).take
      (hdr.record_count * hdr.record_size % 2 ^ 32) = recs := by
    rw [← hrecs]
    exact List.take_left _ _
  have hdroprecs : (recs ++ rest).drop
      (hdr.record_count * hdr.record_size % 2 ^ 32) = rest := by
    rw [← hrecs]
    exact List.drop_left _ _
  have hnotlt2 : ¬ (recs ++ rest).length
      < hdr.record_count * hdr.record_size % 2 ^ 32 := by
    rw [← hrecs]
    simp [List.length_append]
  unfold gtChanceToSpellCritBase.read
  rw [if_neg hnotlt, h20, hparse]
  simp only [hd20, hrs, hfc, gtChanceToSpellCritBase.ROW_SIZE,
    gtChanceToSpellCritBase.FIELD_COUNT, ne_eq, not_true_eq_false, if_false,
    ite_false, not_false_eq_true]
  rw [hrs] at htakerecs hdroprecs hrows hnotlt2
  rw [htakerecs, hdroprecs, hrows]
  rw [if_neg hnotlt2]

theorem gtChanceToSpellCritBase.readRows_flatMap
    (rows : List gtChanceToSpellCritBaseRow)
    (hWF : ∀ r ∈ rows, r.data < 2 ^ 32) :
    gtChanceToSpellCritBase.readRows
      (chunksOf 4 (rows.flatMap (fun r => u32le r.data))) = .ok rows := by
  induction rows with
  | nil => simp [gtChanceToSpellCritBase.readRows, chunksOf, chunksGo]
  | cons r rs ih =>
    have hr := hWF r (List.mem_cons_self r rs)
    have hchunk := chunksOf_append 4 (u32le r.data)
      (rs.flatMap (fun x => u32le x.data)) (by norm_num) (u32le_length _)
    simp only [List.flatMap_cons, hchunk]
    simp only [gtChanceToSpellCritBase.readRows, readF32E_u32le r.data hr,
      ih (fun x hx => hWF x (List.mem_cons_of_mem r hx))]

/-- `gtChanceToSpellCritBase` write-then-read round trip; the sentinel
string-block byte written by `write` is left unread by `read`. -/
theorem gtChanceToSpellCritBase.gt_read_write (t : gtChanceToSpellCritBase)
    (hWF : ∀ r ∈ t.rows, r.data < 2 ^ 32)
    (hsz : t.rows.length * 4 < 2 ^ 32) :
    gtChanceToSpellCritBase.read (gtChanceToSpellCritBase.write t)
      = .ok (t, [0]) := by
  have hL : t.rows.length % 2 ^ 32 = t.rows.length :=
    Nat.mod_eq_of_lt (by omega)
  have hwrite : gtChanceToSpellCritBase.write t
      = DbcHeader.write_header
          ⟨t.rows.length % 2 ^ 32, gtChanceToSpellCritBase.FIELD_COUNT, 4, 1⟩
        ++ (t.rows.flatMap (fun r => u32le r.data) ++ [0]) := by
    simp [gtChanceToSpellCritBase.write, List.append_assoc]
  have hparse : parse_header (DbcHeader.write_header
      ⟨t.rows.length % 2 ^ 32, gtChanceToSpellCritBase.FIELD_COUNT, 4, 1⟩)
      = .ok ⟨t.rows.length % 2 ^ 32, gtChanceToSpellCritBase.FIELD_COUNT, 4, 1⟩ := by
    have h := parse_header_write_header
      ⟨t.rows.length % 2 ^ 32, gtChanceToSpellCritBase.FIELD_COUNT, 4, 1⟩ []
      (Nat.mod_lt _ (by norm_num))
      (by norm_num [gtChanceToSpellCritBase.FIELD_COUNT]) (by norm_num)
      (by norm_num)
    rwa [List.append_nil] at h
  have hlenflat : (t.rows.flatMap (fun r => u32le r.data)).length
      = 4 * t.rows.length := by
    induction t.rows with
    | nil => simp
    | cons r rs ih =>
      simp only [List.flatMap_cons, List.length_append, u32le_length, ih,
        List.length_cons]
      ring
  have hrecs : (t.rows.flatMap (fun r => u32le r.data)).length
      = (t.rows.length % 2 ^ 32) * 4 % 2 ^ 32 := by
    rw [hlenflat, hL, Nat.mod_eq_of_lt (by omega : t.rows.length * 4 < 2 ^ 32)]
    ring
  rw [hwrite]
  exact gtChanceToSpellCritBase.gt_read_decomposed _ _ [0]
    ⟨t.rows.length % 2 ^ 32, gtChanceToSpellCritBase.FIELD_COUNT, 4, 1⟩
    t.rows hparse (write_header_length _) rfl rfl hrecs
    (gtChanceToSpellCritBase.readRows_flatMap t.rows hWF)

/-! ## `tbc_tables::sound_entries` (write side) -/

/-- `SoundEntriesKey`: newtype over the `i32` primary key. -/
structure SoundEntriesKey where
  id : Int
  deriving DecidableEq, Repr

/-- One row of `SoundEntries.dbc`.  The three `f32` fields are modelled
by their bit patterns; `file` is the `[String; 10]` array and `freq`
the `[i32; 10]` array. -/
structure SoundEntriesRow where
  id : SoundEntriesKey
  sound_type : Int
  name : Bytes
  file : List Bytes
  freq : List Int
  directory_base : Bytes
  volume_float : Nat
  flags : Int
  min_distance : Nat
  distance_cutoff : Nat
  e_a_x_def : Int
  deriving DecidableEq, Repr

/-- The `SoundEntries` table. -/
structure SoundEntries where
  rows : List SoundEntriesRow
  deriving DecidableEq, Repr

def SoundEntries.FIELD_COUNT : Nat := 29

def SoundEntries.ROW_SIZE : Nat := 116

/-- The on-wire width of each of the 29 schema fields of
`SoundEntries`, in declared order: `id`, `sound_type`, `name`,
`file[10]`, `freq[10]`, `directory_base`, `volume_float`, `flags`,
`min_distance`, `distance_cutoff`, `e_a_x_def`. -/
def SoundEntries.fieldWidths : List Nat :=
  [4, 4, 4] ++ List.replicate 10 4 ++ List.replicate 10 4 ++ [4, 4, 4, 4, 4, 4]

/-- The per-record encode sequence of `SoundEntries::write`, threading
the `string_index` cursor (the `file` loop is `encodeRefs`). -/
def SoundEntriesRow.writeRow (r : SoundEntriesRow) (string_index : Nat) :
    Bytes × Nat :=
  let p1 :=
    if r.name ≠ [] then
      (u32le (string_index % 2 ^ 32), string_index + r.name.length + 1)
    else (u32le 0, string_index)
  let p2 := encodeRefs r.file p1.2
  let p3 :=
    if r.directory_base ≠ [] then
      (u32le (p2.2 % 2 ^ 32), p2.2 + r.directory_base.length + 1)
    else (u32le 0, p2.2)
  (i32le r.id.id ++ i32le r.sound_type ++ p1.1 ++ p2.1
    ++ r.freq.flatMap (fun i => i32le i) ++ p3.1 ++ u32le r.volume_float
    ++ i32le r.flags ++ u32le r.min_distance ++ u32le r.distance_cutoff
    ++ i32le r.e_a_x_def, p3.2)

/-- The row loop of `SoundEntries::write`. -/
def SoundEntries.writeRows : List SoundEntriesRow → Nat → Bytes
  | [], _ => []
  | r :: rs, string_index =>
    let p := r.writeRow string_index
    p.1 ++ SoundEntries.writeRows rs p.2

/-- The string-block bytes one row contributes in
`SoundEntries::write_string_block`: `name`, the ten `file` slots, then
`directory_base`. -/
def SoundEntriesRow.blockBytes (r : SoundEntriesRow) : Bytes :=
  (if r.name = [] then [] else r.name ++ [0]) ++ refBlock r.file
    ++ (if r.directory_base = [] then [] else r.directory_base ++ [0])

/-- `SoundEntries::write_string_block`. -/
def SoundEntries.write_string_block (t : SoundEntries) : Bytes :=
  0 :: t.rows.flatMap SoundEntriesRow.blockBytes

/-- The summand one row contributes in `SoundEntries::string_block_size`. -/
def SoundEntriesRow.blockWeight (r : SoundEntriesRow) : Nat :=
  (if r.name = [] then 0 else r.name.length + 1)
    + (r.file.map refWeight).sum
    + (if r.directory_base = [] then 0 else r.directory_base.length + 1)

/-- `SoundEntries::string_block_size` before the `as u32` cast. -/
def SoundEntries.string_block_sizeNat (t : SoundEntries) : Nat :=
  1 + (t.rows.map SoundEntriesRow.blockWeight).sum

/-- `SoundEntries::string_block_size` (`as u32` truncates). -/
def SoundEntries.string_block_size (t : SoundEntries) : Nat :=
  t.string_block_sizeNat % 2 ^ 32

/-- The header `SoundEntries::write` emits: `record_count` is
`rows.len() as u32`, `field_count` and `record_size` the compile-time
constants, `string_block_size` the computed (truncated) sum. -/
def SoundEntries.header (t : SoundEntries) : DbcHeader :=
  ⟨t.rows.length % 2 ^ 32, SoundEntries.FIELD_COUNT, 116,
   t.string_block_size⟩

theorem SoundEntries.header_record_count (t : SoundEntries) :
    (SoundEntries.header t).record_count = t.rows.length % 2 ^ 32 := rfl

/-- `SoundEntries::write`. -/
def SoundEntries.write (t : SoundEntries) : Bytes :=
  (SoundEntries.header t).write_header ++ SoundEntries.writeRows t.rows 1
    ++ t.write_string_block

/-- All string slots of one `SoundEntries` row in declared traversal
order: `name`, the ten `file` entries, `directory_base`. -/
def SoundEntriesRow.strSlots (r : SoundEntriesRow) : List Bytes :=
  r.name :: (r.file ++ [r.directory_base])

/-- All string slots of the table in record-emission order. -/
def SoundEntries.slotsFlat (t : SoundEntries) : List Bytes :=
  t.rows.flatMap SoundEntriesRow.strSlots

/-! ## The `string_index` emission trace -/

/-- The non-empty string encounters of a slot traversal paired with the
`u32` value (`string_index as u32`) the writer emits for each,
mirroring the cursor threading of the generated write bodies. -/
def encOffsets : List Bytes → Nat → List (Nat × Bytes)
  | [], _ => []
  | s :: rest, string_index =>
    if s = [] then encOffsets rest string_index
    else (string_index % 2 ^ 32, s) :: encOffsets rest (string_index + s.length + 1)

/-- The `u32` value the writer emits for every slot (0 for empty slots),
mirroring the cursor threading of the generated write bodies. -/
def refValues : List Bytes → Nat → List Nat
  | [], _ => []
  | s :: rest, string_index =>
    if s = [] then 0 :: refValues rest string_index
    else string_index % 2 ^ 32 :: refValues rest (string_index + s.length + 1)

theorem encodeRefs_eq_refValues (l : List Bytes) (string_index : Nat) :
    (encodeRefs l string_index).1 = (refValues l string_index).flatMap u32le := by
  induction l generalizing string_index with
  | nil => rfl
  | cons s rest ih =>
    simp only [encodeRefs, refValues, writeStrRef]
    by_cases hs : s = []
    · rw [if_neg (by simp [hs]), if_pos hs]
      simp [ih]
    · rw [if_pos hs, if_neg hs]
      simp [ih]

theorem encOffsets_map_snd (l : List Bytes) (string_index : Nat) :
    (encOffsets l string_index).map Prod.snd = l.filter (· ≠ []) := by
  induction l generalizing string_index with
  | nil => rfl
  | cons s rest ih =>
    simp only [encOffsets, List.filter_cons]
    by_cases hs : s = []
    · rw [if_pos hs, if_neg (by simp [hs])]
      exact ih _
    · rw [if_neg hs, if_pos (by simp [hs])]
      simp [ih]

/-- Every emitted offset in the trace points at the exact byte position
where the string block holds that string followed by its terminating
NUL, provided the total block size fits `u32` (cursor invariant
`string_index = 1 + weight done`). -/
theorem encOffsets_placement (slots : List Bytes) (done : List Bytes)
    (hb : 1 + weight done + weight slots < 2 ^ 32) :
    ∀ p ∈ encOffsets slots (1 + weight done),
      ((0 :: refBlock (done ++ slots)).drop p.1).take (p.2.length + 1)
        = p.2 ++ [0] := by
  induction slots generalizing done with
  | nil => simp [encOffsets]
  | cons s rest ih =>
    intro p hp
    rw [weight_cons] at hb
    by_cases hs : s = []
    · rw [encOffsets, if_pos hs] at hp
      have hlist : done ++ s :: rest = (done ++ [s]) ++ rest := by simp
      have h0 : refWeight s = 0 := by rw [refWeight, if_pos hs]
      have hw : weight (done ++ [s]) = weight done := by
        rw [weight_append, weight_cons, weight_nil, h0]
        omega
      have := ih (done ++ [s]) (by rw [hw]; omega) p (by rwa [hw])
      rwa [hlist]
    · rw [encOffsets, if_neg hs] at hp
      have hidx : 1 + weight done < 2 ^ 32 := by
        have : 0 < refWeight s := by
          rw [refWeight, if_neg hs]
          omega
        omega
      rcases List.mem_cons.mp hp with hh | hh
      · subst hh
        simp only [Nat.mod_eq_of_lt hidx]
        have hblock : refBlock (done ++ s :: rest)
            = refBlock done ++ ((s ++ [0]) ++ refBlock rest) := by
          rw [refBlock_append, refBlock_cons, if_neg hs]
        rw [hblock]
        have hdrop : (0 :: (refBlock done ++ ((s ++ [0]) ++ refBlock rest))).drop
            (1 + weight done) = (s ++ [0]) ++ refBlock rest := by
          rw [Nat.add_comm, List.drop_succ_cons, ← refBlock_length done,
            List.drop_left]
        rw [hdrop]
        have hlen : s.length + 1 = (s ++ [0]).length := by simp
        rw [hlen, List.take_left]
      · have hcur : (1 + weight done) + s.length + 1
            = 1 + weight (done ++ [s]) := by
          rw [weight_append, weight_cons, weight_nil, refWeight, if_neg hs]
          omega
        rw [hcur] at hh
        have hlist : done ++ s :: rest = (done ++ [s]) ++ rest := by simp
        have hw : weight (done ++ [s]) = weight done + refWeight s := by
          rw [weight_append, weight_cons, weight_nil]
          omega
        have := ih (done ++ [s]) (by rw [hw]; omega) p hh
        rwa [hlist]

theorem refBlock_filter (l : List Bytes) :
    refBlock l = (l.filter (· ≠ [])).flatMap (fun s => s ++ [0]) := by
  induction l with
  | nil => rfl
  | cons s rest ih =>
    rw [refBlock_cons, List.filter_cons]
    by_cases hs : s = []
    · rw [if_pos hs, if_neg (by simp [hs]), ih]
      simp
    · rw [if_neg hs, if_pos (by simp [hs])]
      simp [ih]

theorem SoundEntriesRow.sound_blockBytes_eq (r : SoundEntriesRow) :
    r.blockBytes = refBlock r.strSlots := by
  simp only [SoundEntriesRow.blockBytes, SoundEntriesRow.strSlots, refBlock_cons,
    refBlock_append, refBlock_nil, List.append_nil, List.append_assoc]

theorem SoundEntries.sound_flatMap_blockBytes (rows : List SoundEntriesRow) :
    rows.flatMap SoundEntriesRow.blockBytes
      = refBlock (rows.flatMap SoundEntriesRow.strSlots) := by
  induction rows with
  | nil => rfl
  | cons r rs ih =>
    simp only [List.flatMap_cons, refBlock_append, ih,
      SoundEntriesRow.sound_blockBytes_eq]

theorem SoundEntries.sound_write_string_block_eq (t : SoundEntries) :
    t.write_string_block = 0 :: refBlock (SoundEntries.slotsFlat t) := by
  unfold SoundEntries.write_string_block SoundEntries.slotsFlat
  rw [SoundEntries.sound_flatMap_blockBytes]

theorem SoundEntriesRow.sound_blockWeight_eq (r : SoundEntriesRow) :
    r.blockWeight = weight r.strSlots := by
  by_cases h1 : r.name = [] <;> by_cases h2 : r.directory_base = [] <;>
    simp [SoundEntriesRow.blockWeight, SoundEntriesRow.strSlots, weight_cons,
      weight_append, weight_nil, refWeight, h1, h2, weight] <;>
    omega

theorem SoundEntries.sound_string_block_sizeNat_eq (t : SoundEntries) :
    t.string_block_sizeNat = 1 + weight (SoundEntries.slotsFlat t) := by
  unfold SoundEntries.string_block_sizeNat SoundEntries.slotsFlat
  refine congrArg (1 + ·) ?_
  induction t.rows with
  | nil => rfl
  | cons r rs ih =>
    simp only [List.map_cons, List.sum_cons, List.flatMap_cons, weight_append,
      ih, SoundEntriesRow.sound_blockWeight_eq]

/-! ## `wrath_tables::file_data` (write side) -/

/-- `FileDataKey`: newtype over the `i32` primary key. -/
structure FileDataKey where
  id : Int
  deriving DecidableEq, Repr

/-- One row of `FileData.dbc`. -/
structure FileDataRow where
  id : FileDataKey
  filename : Bytes
  filepath : Bytes
  deriving DecidableEq, Repr

/-- The `FileData` table. -/
structure FileData where
  rows : List FileDataRow
  deriving DecidableEq, Repr

def FileData.FIELD_COUNT : Nat := 3

def FileData.ROW_SIZE : Nat := 12

/-- The per-record encode sequence of `FileData::write`: primary key,
then the two `string_ref` fields with the `string_index` cursor
threaded through. -/
def FileDataRow.writeRow (r : FileDataRow) (string_index : Nat) : Bytes × Nat :=
  let p1 :=
    if r.filename ≠ [] then
      (u32le (string_index % 2 ^ 32), string_index + r.filename.length + 1)
    else (u32le 0, string_index)
  let p2 :=
    if r.filepath ≠ [] then
      (u32le (p1.2 % 2 ^ 32), p1.2 + r.filepath.length + 1)
    else (u32le 0, p1.2)
  (i32le r.id.id ++ p1.1 ++ p2.1, p2.2)

/-- The row loop of `FileData::write`. -/
def FileData.writeRows : List FileDataRow → Nat → Bytes
  | [], _ => []
  | r :: rs, string_index =>
    let p := r.writeRow string_index
    p.1 ++ FileData.writeRows rs p.2

/-- The string-block bytes one row contributes in
`FileData::write_string_block`. -/
def FileDataRow.blockBytes (r : FileDataRow) : Bytes :=
  (if r.filename = [] then [] else r.filename ++ [0])
    ++ (if r.filepath = [] then [] else r.filepath ++ [0])

/-- `FileData::write_string_block`. -/
def FileData.write_string_block (t : FileData) : Bytes :=
  0 :: t.rows.flatMap FileDataRow.blockBytes

/-- The two string slots of one `FileData` row in declared order. -/
def FileDataRow.strSlots (r : FileDataRow) : List Bytes :=
  [r.filename, r.filepath]

/-- All string slots of the table in record-emission order. -/
def FileData.slotsFlat (t : FileData) : List Bytes :=
  t.rows.flatMap FileDataRow.strSlots

theorem FileDataRow.writeRow_refValues (r : FileDataRow) (string_index : Nat) :
    (r.writeRow string_index).1
      = i32le r.id.id ++ (refValues r.strSlots string_index).flatMap u32le
    ∧ (r.writeRow string_index).2 = string_index + weight r.strSlots := by
  by_cases h1 : r.filename = [] <;> by_cases h2 : r.filepath = [] <;>
    constructor <;>
    simp [FileDataRow.writeRow, FileDataRow.strSlots, refValues, weight_cons,
      weight_nil, refWeight, h1, h2, List.append_assoc] <;>
    omega

/-- Lower bound for every emitted trace offset: offsets only grow. -/
theorem encOffsets_lb (slots : List Bytes) (string_index : Nat)
    (hb : string_index + weight slots ≤ 2 ^ 32) :
    ∀ p ∈ encOffsets slots string_index, string_index ≤ p.1 := by
  induction slots generalizing string_index with
  | nil => simp [encOffsets]
  | cons s rest ih =>
    intro p hp
    rw [weight_cons] at hb
    by_cases hs : s = []
    · rw [encOffsets, if_pos hs] at hp
      exact ih string_index (by omega) p hp
    · rw [encOffsets, if_neg hs] at hp
      have hrw : refWeight s = s.length + 1 := by rw [refWeight, if_neg hs]
      have hidx : string_index < 2 ^ 32 := by omega
      rcases List.mem_cons.mp hp with hh | hh
      · subst hh
        rw [Nat.mod_eq_of_lt hidx]
      · have := ih (string_index + s.length + 1) (by omega) p hh
        omega

/-- Every non-empty occurrence receives a fresh, strictly larger offset
than all earlier ones (so offsets are pairwise distinct even when two
occurrences hold equal strings), provided the cursor stays within
`u32`. -/
theorem encOffsets_strictMono (slots : List Bytes) (string_index : Nat)
    (h1 : 1 ≤ string_index) (hb : string_index + weight slots ≤ 2 ^ 32) :
    (encOffsets slots string_index).Pairwise (fun p q => p.1 < q.1) := by
  induction slots generalizing string_index with
  | nil => simp [encOffsets]
  | cons s rest ih =>
    rw [weight_cons] at hb
    by_cases hs : s = []
    · rw [encOffsets, if_pos hs]
      exact ih string_index h1 (by omega)
    · rw [encOffsets, if_neg hs]
      have hrw : refWeight s = s.length + 1 := by rw [refWeight, if_neg hs]
      have hidx : string_index < 2 ^ 32 := by omega
      refine List.Pairwise.cons ?_ (ih (string_index + s.length + 1) (by omega)
        (by omega))
      intro q hq
      have := encOffsets_lb rest (string_index + s.length + 1) (by omega) q hq
      rw [Nat.mod_eq_of_lt hidx]
      omega

/-- The writer emits `u32` zero exactly at the empty slots, provided
the cursor starts at least at 1 and stays within `u32`. -/
theorem refValues_zero_iff (slots : List Bytes) (string_index : Nat)
    (h1 : 1 ≤ string_index) (hb : string_index + weight slots ≤ 2 ^ 32) :
    ∀ p ∈ slots.zip (refValues slots string_index), (p.2 = 0 ↔ p.1 = []) := by
  induction slots generalizing string_index with
  | nil => simp
  | cons s rest ih =>
    intro p hp
    rw [weight_cons] at hb
    by_cases hs : s = []
    · rw [refValues, if_pos hs] at hp
      rcases List.mem_cons.mp hp with hh | hh
      · subst hh
        simp [hs]
      · exact ih string_index h1 (by
          have : refWeight s = 0 := by rw [refWeight, if_pos hs]
          omega) p hh
    · rw [refValues, if_neg hs] at hp
      have hrw : refWeight s = s.length + 1 := by rw [refWeight, if_neg hs]
      have hidx : string_index < 2 ^ 32 := by omega
      rcases List.mem_cons.mp hp with hh | hh
      · subst hh
        simp only [Nat.mod_eq_of_lt hidx]
        constructor
        · intro h
          omega
        · intro h
          exact absurd h hs
      · exact ih (string_index + s.length + 1) (by omega) (by omega) p hh

/-! ## Key conversions and `Indexable` -/

/-- `impl From<u8> for LockTypeKey` (theorems restrict `v` to the `u8`
range). -/
def LockTypeKey.fromU8 (v : Nat) : LockTypeKey := ⟨(v : Int)⟩

/-- `impl From<u16> for LockTypeKey`. -/
def LockTypeKey.fromU16 (v : Nat) : LockTypeKey := ⟨(v : Int)⟩

/-- `impl From<i8> for LockTypeKey`. -/
def LockTypeKey.fromI8 (v : Int) : LockTypeKey := ⟨v⟩

/-- `impl From<i16> for LockTypeKey`. -/
def LockTypeKey.fromI16 (v : Int) : LockTypeKey := ⟨v⟩

/-- `impl From<i32> for LockTypeKey`. -/
def LockTypeKey.fromI32 (v : Int) : LockTypeKey := ⟨v⟩

/-- `impl TryFrom<u32> for LockTypeKey`:
`TryInto::<i32>::try_into(v).ok().ok_or(v)?.into()` succeeds exactly
when the `u32` value fits `i32`, otherwise the original value is the
error. -/
def LockTypeKey.tryFromU32 (v : Nat) : Except Nat LockTypeKey :=
  if v < 2 ^ 31 then .ok (LockTypeKey.fromI32 (v : Int)) else .error v

/-- `impl TryFrom<usize> for LockTypeKey` (64-bit `usize`). -/
def LockTypeKey.tryFromUsize (v : Nat) : Except Nat LockTypeKey :=
  if v < 2 ^ 31 then .ok (LockTypeKey.fromI32 (v : Int)) else .error v

/-- `impl TryFrom<u64> for LockTypeKey`. -/
def LockTypeKey.tryFromU64 (v : Nat) : Except Nat LockTypeKey :=
  if v < 2 ^ 31 then .ok (LockTypeKey.fromI32 (v : Int)) else .error v

/-- `impl TryFrom<i64> for LockTypeKey`. -/
def LockTypeKey.tryFromI64 (v : Int) : Except Int LockTypeKey :=
  if -2 ^ 31 ≤ v ∧ v < 2 ^ 31 then .ok (LockTypeKey.fromI32 v) else .error v

/-- `impl TryFrom<isize> for LockTypeKey` (64-bit `isize`). -/
def LockTypeKey.tryFromIsize (v : Int) : Except Int LockTypeKey :=
  if -2 ^ 31 ≤ v ∧ v < 2 ^ 31 then .ok (LockTypeKey.fromI32 v) else .error v

/-- `Indexable::get` for `LockType`: the `impl TryInto` argument is
modelled by the `Option` that `key.try_into().ok()` produces; the
lookup is the linear `iter().find` on the primary-key field. -/
def LockType.get (t : LockType) (key : Option LockTypeKey) :
    Option LockTypeRow :=
  match key with
  | none => none
  | some k => t.rows.find? (fun a => a.id.id == k.id)

/-- `Indexable::get_mut` for `LockType`: same lookup over
`iter_mut().find`, returning the first matching row (by mutable
reference in Rust). -/
def LockType.get_mut (t : LockType) (key : Option LockTypeKey) :
    Option LockTypeRow :=
  match key with
  | none => none
  | some k => t.rows.find? (fun a => a.id.id == k.id)

/-- `SpellRangeKey`: newtype over the `u32` primary key. -/
structure SpellRangeKey where
  id : Nat
  deriving DecidableEq, Repr

/-- One row of `SpellRange.dbc` (Vanilla); the two `f32` fields are bit
patterns, the two localized strings are the 8-slot Vanilla flavor. -/
structure SpellRangeRow where
  id : SpellRangeKey
  range_min : Nat
  range_max : Nat
  flags : Int
  display_name : LocalizedString
  display_name_short : LocalizedString
  deriving DecidableEq, Repr

/-- The `SpellRange` table. -/
structure SpellRange where
  rows : List SpellRangeRow
  deriving DecidableEq, Repr

/-- `impl From<u8> for SpellRangeKey`. -/
def SpellRangeKey.fromU8 (v : Nat) : SpellRangeKey := ⟨v⟩

/-- `impl From<u16> for SpellRangeKey`. -/
def SpellRangeKey.fromU16 (v : Nat) : SpellRangeKey := ⟨v⟩

/-- `impl From<u32> for SpellRangeKey`. -/
def SpellRangeKey.fromU32 (v : Nat) : SpellRangeKey := ⟨v⟩

/-- `impl TryFrom<u64> for SpellRangeKey`. -/
def SpellRangeKey.tryFromU64 (v : Nat) : Except Nat SpellRangeKey :=
  if v < 2 ^ 32 then .ok (SpellRangeKey.fromU32 v) else .error v

/-- `impl TryFrom<usize> for SpellRangeKey`. -/
def SpellRangeKey.tryFromUsize (v : Nat) : Except Nat SpellRangeKey :=
  if v < 2 ^ 32 then .ok (SpellRangeKey.fromU32 v) else .error v

/-- `impl TryFrom<i8> for SpellRangeKey`:
`TryInto::<u32>::try_into(v)` succeeds exactly for non-negative values. -/
def SpellRangeKey.tryFromI8 (v : Int) : Except Int SpellRangeKey :=
  if 0 ≤ v ∧ v < 2 ^ 32 then .ok (SpellRangeKey.fromU32 v.toNat) else .error v

/-- `impl TryFrom<i16> for SpellRangeKey`. -/
def SpellRangeKey.tryFromI16 (v : Int) : Except Int SpellRangeKey :=
  if 0 ≤ v ∧ v < 2 ^ 32 then .ok (SpellRangeKey.fromU32 v.toNat) else .error v

/-- `impl TryFrom<i32> for SpellRangeKey`. -/
def SpellRangeKey.tryFromI32 (v : Int) : Except Int SpellRangeKey :=
  if 0 ≤ v ∧ v < 2 ^ 32 then .ok (SpellRangeKey.fromU32 v.toNat) else .error v

/-- `impl TryFrom<i64> for SpellRangeKey`. -/
def SpellRangeKey.tryFromI64 (v : Int) : Except Int SpellRangeKey :=
  if 0 ≤ v ∧ v < 2 ^ 32 then .ok (SpellRangeKey.fromU32 v.toNat) else .error v

/-- `impl TryFrom<isize> for SpellRangeKey`. -/
def SpellRangeKey.tryFromIsize (v : Int) : Except Int SpellRangeKey :=
  if 0 ≤ v ∧ v < 2 ^ 32 then .ok (SpellRangeKey.fromU32 v.toNat) else .error v

/-- `Indexable::get` for `SpellRange`. -/
def SpellRange.get (t : SpellRange) (key : Option SpellRangeKey) :
    Option SpellRangeRow :=
  match key with
  | none => none
  | some k => t.rows.find? (fun a => a.id.id == k.id)

/-- `Indexable::get_mut` for `SpellRange`. -/
def SpellRange.get_mut (t : SpellRange) (key : Option SpellRangeKey) :
    Option SpellRangeRow :=
  match key with
  | none => none
  | some k => t.rows.find? (fun a => a.id.id == k.id)

/-! ## Table-name parsing (`create_table_enum` in `rxml/src/main.rs`) -/

/-- The `FromStr` implementation the generator emits for a version's
`TableName` enum: one match arm per table name, in catalog order,
mapping the exact name to the corresponding variant (modelled by its
index in the catalog); the wildcard arm produces
`DbcError::InvalidTableName` carrying the input string. -/
def tableNameFromStr (names : List String) (s : String) : Except DbcError Nat :=
  match names.findIdx? (fun n => n == s) with
  | some i => .ok i
  | none => .error (.invalidTableName s)

/-! ## Claim theorems -/

/-- An `ExtendedLocalizedString` with all 16 locale slots empty and a
zero flags word. -/
def emptyExt : ExtendedLocalizedString :=
  ⟨[[], [], [], [], [], [], [], [], [], [], [], [], [], [], [], []], 0⟩

/-- A `LockType` table whose single row holds the one-byte string `"\x00"`
(a NUL byte) in `cursor_name`; such a value is representable in the Rust
row type but does not survive the codec. -/
def c1Table : LockType := ⟨[⟨⟨5⟩, emptyExt, emptyExt, emptyExt, [0]⟩]⟩

/-- What `read` actually returns for `write c1Table`: the NUL-byte
string comes back empty. -/
def c1Decoded : LockType := ⟨[⟨⟨5⟩, emptyExt, emptyExt, emptyExt, []⟩]⟩

set_option maxRecDepth 100000 in
/-- C1 counterexample: the claim fails as stated.  For the table whose
single row stores the string consisting of one NUL byte, `write`
advances the string cursor past the NUL it embeds, and `read` resolves
the emitted offset by scanning to the first NUL, so the decoded table
is structurally different (the string comes back empty). -/
theorem c1_counterexample :
    LockType.read (LockType.write c1Table) = .ok (c1Decoded, [])
    ∧ c1Decoded ≠ c1Table := by
  constructor
  · decide
  · decide

/-- C1 (amended): for every table value whose strings are NUL-free
valid UTF-8 and whose row count and string block fit the `u32` header
fields, writing and re-reading yields `Ok` of a structurally equal
table.  Shown for the two tables the claim cites: `LockType` (with the
whole string machinery) and `gtChanceToSpellCritBase` (whose `read`
leaves the one-byte string block unread). -/
theorem c1_round_trip (t : LockType) (g : gtChanceToSpellCritBase)
    (hWF : ∀ r ∈ t.rows, r.WF) (hok : ∀ r ∈ t.rows, r.strsOK)
    (hsz : t.rows.length * 212 < 2 ^ 32)
    (hsb : t.string_block_sizeNat < 2 ^ 32)
    (hgWF : ∀ r ∈ g.rows, r.data < 2 ^ 32)
    (hgsz : g.rows.length * 4 < 2 ^ 32) :
    LockType.read (LockType.write t) = .ok (t, [])
    ∧ gtChanceToSpellCritBase.read (gtChanceToSpellCritBase.write g)
        = .ok (g, [0]) :=
  ⟨LockType.lock_read_write t hWF hok hsz hsb,
   gtChanceToSpellCritBase.gt_read_write g hgWF hgsz⟩

/-- A well-formed one-row `LockType` table with an ASCII string. -/
def c1wTable : LockType := ⟨[⟨⟨7⟩, emptyExt, emptyExt, emptyExt, [97]⟩]⟩

/-- A one-row `gtChanceToSpellCritBase` table (bit pattern of 1.0f). -/
def c1wGt : gtChanceToSpellCritBase := ⟨[⟨1065353216⟩]⟩

set_option maxRecDepth 100000 in
/-- Witness for the amended C1 at a concrete input. -/
theorem c1_round_trip_witness :
    LockType.read (LockType.write c1wTable) = .ok (c1wTable, [])
    ∧ gtChanceToSpellCritBase.read (gtChanceToSpellCritBase.write c1wGt)
        = .ok (c1wGt, [0]) :=
  c1_round_trip c1wTable c1wGt (by decide) (by decide) (by decide) (by decide)
    (by decide) (by decide)

/-- C5: on a stream whose first 20 bytes carry a valid `WDBC` magic,
`LockType::read` rejects a wrong `record_size` with
`InvalidHeader::RecordSize { expected = ROW_SIZE, actual }`, and (with
`record_size` right) a wrong `field_count` with
`InvalidHeader::FieldCount { expected, actual }`.  The result is the
same for every continuation `rest` of the stream: no input beyond the
20 header bytes is consumed. -/
theorem c5_header_validation (b rest : Bytes) (hdr : DbcHeader)
    (hlen : b.length = 20) (hparse : parse_header b = .ok hdr) :
    (hdr.record_size ≠ LockType.ROW_SIZE →
      LockType.read (b ++ rest)
        = .error (.invalidHeader
            (.recordSize LockType.ROW_SIZE hdr.record_size)))
    ∧ (hdr.record_size = LockType.ROW_SIZE →
       hdr.field_count ≠ LockType.FIELD_COUNT →
      LockType.read (b ++ rest)
        = .error (.invalidHeader
            (.fieldCount LockType.FIELD_COUNT hdr.field_count))) := by
  have h20 : (b ++ rest).take 20 = b := by
    rw [← hlen]
    exact List.take_left _ _
  have hnl : ¬ (b ++ rest).length < 20 := by
    simp [List.length_append, hlen]
  constructor
  · intro hne
    unfold LockType.read
    rw [if_neg hnl, h20, hparse]
    simp only [ne_eq, hne, not_false_eq_true, if_true, ite_true]
  · intro heq hne
    unfold LockType.read
    rw [if_neg hnl, h20, hparse]
    simp only [ne_eq, heq, not_true_eq_false, if_false, ite_false, hne,
      not_false_eq_true, if_true, ite_true]

/-- Witness for C5 at concrete headers (`record_size` 211 instead of
212; `field_count` 52 instead of 53). -/
theorem c5_header_validation_witness :
    LockType.read (DbcHeader.write_header ⟨0, 0, 211, 0⟩ ++ [1, 2, 3])
      = .error (.invalidHeader (.recordSize 212 211))
    ∧ LockType.read (DbcHeader.write_header ⟨0, 52, 212, 0⟩ ++ [9])
      = .error (.invalidHeader (.fieldCount 53 52)) := by
  constructor
  · exact (c5_header_validation (DbcHeader.write_header ⟨0, 0, 211, 0⟩) [1, 2, 3]
      ⟨0, 0, 211, 0⟩ rfl (by decide)).1 (by decide)
  · exact (c5_header_validation (DbcHeader.write_header ⟨0, 52, 212, 0⟩) [9]
      ⟨0, 52, 212, 0⟩ rfl (by decide)).2 (by decide) (by decide)

/-- C6 counterexample: the claim fails as stated.  A
`gtChanceToSpellCritBase` header with `record_count = 2^30` and
`record_size = 4` makes `record_count * record_size` overflow `u32`
(the product is `2^32`), yet `read` does not reject the header: the
`u32` multiplication wraps to `0`, the record buffer is empty, and
`read` succeeds with zero rows. -/
theorem c6_counterexample :
    gtChanceToSpellCritBase.read (DbcHeader.write_header ⟨2 ^ 30, 1, 4, 1⟩)
      = .ok (⟨[]⟩, [])
    ∧ 2 ^ 32 ≤ 2 ^ 30 * 4 := by
  constructor
  · decide
  · norm_num

/-- C6 (amended): `read` does not guard against the overflowing
multiplication; it computes `record_count * record_size` in wrapping
`u32` arithmetic (release semantics; a debug build would panic) and
sizes the record buffer by the wrapped product, proceeding normally. -/
theorem c6_no_overflow_guard (rc sbs : Nat) (recs rest : Bytes)
    (rows : List gtChanceToSpellCritBaseRow)
    (hrc : rc < 2 ^ 32) (hsbs : sbs < 2 ^ 32)
    (hrecs : recs.length = rc * 4 % 2 ^ 32)
    (hrows : gtChanceToSpellCritBase.readRows (chunksOf 4 recs) = .ok rows) :
    gtChanceToSpellCritBase.read
        (DbcHeader.write_header ⟨rc, 1, 4, sbs⟩ ++ (recs ++ rest))
      = .ok (⟨rows⟩, rest) := by
  refine gtChanceToSpellCritBase.gt_read_decomposed _ _ _ ⟨rc, 1, 4, sbs⟩ rows
    ?_ (write_header_length _) rfl rfl hrecs hrows
  have h := parse_header_write_header ⟨rc, 1, 4, sbs⟩ [] hrc (by norm_num)
    (by norm_num) hsbs
  rwa [List.append_nil] at h

/-- Witness for the amended C6: with `record_count = 2^30` the wrapped
record-buffer size is `0` and `read` succeeds on an empty record
region, leaving the rest of the stream unread. -/
theorem c6_no_overflow_guard_witness :
    gtChanceToSpellCritBase.read
        (DbcHeader.write_header ⟨2 ^ 30, 1, 4, 7⟩ ++ ([] ++ [1, 2]))
      = .ok (⟨[]⟩, [1, 2]) :=
  c6_no_overflow_guard (2 ^ 30) 7 [] [1, 2] [] (by norm_num) (by norm_num)
    (by decide) (by decide)

/-- C10 counterexample: the claim fails as stated.  With
`record_count = 2^30` and `record_size = 212` the product wraps to `0`
modulo `2^32`, so `LockType::read` consumes only `20 + 0 + 1 = 21`
bytes, not `20 + record_count * record_size + string_block_size`. -/
theorem c10_counterexample :
    LockType.read
        (DbcHeader.write_header ⟨2 ^ 30, 53, 212, 1⟩ ++ ([0] ++ [9, 9, 9]))
      = .ok (⟨[]⟩, [9, 9, 9])
    ∧ (DbcHeader.write_header ⟨2 ^ 30, 53, 212, 1⟩
        ++ ([0] ++ [9, 9, 9])).length = 24
    ∧ 24 - 3 ≠ 20 + (2 ^ 30 * 212 + 1) := by
  refine ⟨by decide, by decide, by norm_num⟩

/-- C10 (amended): `LockType::read` consumes exactly 20 header bytes,
`record_count * record_size` record bytes computed in wrapping `u32`
arithmetic, and `string_block_size` string-block bytes; any trailing
bytes are left unread and returned, and trailing data never causes an
error. -/
theorem c10_read_consumption (hdrB recs blockB rest : Bytes)
    (hdr : DbcHeader) (rows : List LockTypeRow)
    (hparse : parse_header hdrB = .ok hdr) (hhlen : hdrB.length = 20)
    (hrs : hdr.record_size = 212) (hfc : hdr.field_count = 53)
    (hrecs : recs.length = hdr.record_count * hdr.record_size % 2 ^ 32)
    (hblock : blockB.length = hdr.string_block_size)
    (hrows : LockType.readRows (chunksOf hdr.record_size recs) blockB
      = .ok rows) :
    LockType.read (hdrB ++ (recs ++ (blockB ++ rest))) = .ok (⟨rows⟩, rest)
    ∧ (hdrB ++ (recs ++ (blockB ++ rest))).length
        = 20 + (hdr.record_count * hdr.record_size % 2 ^ 32
            + (hdr.string_block_size + rest.length)) := by
  refine ⟨LockType.lock_read_decomposed hdrB recs blockB rest hdr rows hparse hhlen
    hrs hfc hrecs hblock hrows, ?_⟩
  simp [List.length_append, hhlen, hrecs, hblock]

set_option maxRecDepth 100000 in
/-- Witness for the amended C10 on a one-row stream with two trailing
bytes. -/
theorem c10_read_consumption_witness :
    LockType.read (DbcHeader.write_header ⟨1, 53, 212, 1⟩
        ++ (([5, 0, 0, 0] ++ List.replicate 208 0) ++ ([0] ++ [7, 7])))
      = .ok (⟨[⟨⟨5⟩, emptyExt, emptyExt, emptyExt, []⟩]⟩, [7, 7])
    ∧ (DbcHeader.write_header ⟨1, 53, 212, 1⟩
        ++ (([5, 0, 0, 0] ++ List.replicate 208 0) ++ ([0] ++ [7, 7]))).length
      = 20 + (1 * 212 % 2 ^ 32 + (1 + 2)) :=
  c10_read_consumption (DbcHeader.write_header ⟨1, 53, 212, 1⟩)
    ([5, 0, 0, 0] ++ List.replicate 208 0) [0] [7, 7] ⟨1, 53, 212, 1⟩
    [⟨⟨5⟩, emptyExt, emptyExt, emptyExt, []⟩]
    (by decide) (by decide) rfl rfl (by decide) (by decide) (by decide)

/-- A `SoundEntries` row whose `name` is `2^32 - 1` bytes long, driving
the `string_index` cursor past `u32` range before `directory_base` is
emitted. -/
def c2Row : SoundEntriesRow :=
  ⟨⟨0⟩, 0, List.replicate (2 ^ 32 - 1) 97,
   [[], [], [], [], [], [], [], [], [], []],
   [0, 0, 0, 0, 0, 0, 0, 0, 0, 0], [98], 0, 0, 0, 0, 0⟩

/-- One-row table around `c2Row`. -/
def c2Table : SoundEntries := ⟨[c2Row]⟩

theorem c2_name_ne_nil : List.replicate (2 ^ 32 - 1) 97 ≠ ([] : Bytes) := by
  apply List.ne_nil_of_length_pos
  rw [List.length_replicate]
  norm_num

/-- The flattened slot list of `c2Table`, spelled out. -/
theorem c2_slotsFlat_eq :
    SoundEntries.slotsFlat c2Table
      = List.replicate (2 ^ 32 - 1) 97
        :: [[], [], [], [], [], [], [], [], [], [], [98]] := by
  unfold SoundEntries.slotsFlat
  rw [show c2Table.rows = [c2Row] from rfl]
  rw [List.flatMap_cons, List.flatMap_nil, List.append_nil]
  rw [show SoundEntriesRow.strSlots c2Row
      = List.replicate (2 ^ 32 - 1) 97
        :: [[], [], [], [], [], [], [], [], [], [], [98]] from rfl]

/-- The emitted offsets for `c2Table`: the cursor wraps, so the second
non-empty string is announced at offset `1` again. -/
theorem c2_encOffsets_eq :
    encOffsets (SoundEntries.slotsFlat c2Table) 1
        = [(1, List.replicate (2 ^ 32 - 1) 97), (1, [98])] := by
  rw [c2_slotsFlat_eq]
  rw [encOffsets, if_neg c2_name_ne_nil]
  rw [List.length_replicate]
  rw [show (1 + (2 ^ 32 - 1) + 1 : Nat) = 2 ^ 32 + 1 by omega]
  rw [show encOffsets [[], [], [], [], [], [], [], [], [], [], [98]]
      (2 ^ 32 + 1) = [((2 ^ 32 + 1) % 2 ^ 32, [98])] from rfl]
  rw [show ((2 ^ 32 + 1) % 2 ^ 32 : Nat) = 1 by norm_num]
  rw [show (1 % 2 ^ 32 : Nat) = 1 by norm_num]

/-- The string-block bytes `c2Row` contributes. -/
theorem c2_blockBytes_eq : SoundEntriesRow.blockBytes c2Row
    = (List.replicate (2 ^ 32 - 1) 97 ++ [0]) ++ ([98] ++ [0]) := by
  unfold SoundEntriesRow.blockBytes
  rw [show c2Row.name = List.replicate (2 ^ 32 - 1) 97 from rfl,
    show c2Row.file = [[], [], [], [], [], [], [], [], [], []] from rfl,
    show c2Row.directory_base = [98] from rfl,
    if_neg c2_name_ne_nil, if_neg (show ([98] : Bytes) ≠ [] by decide),
    show refBlock [[], [], [], [], [], [], [], [], [], []] = ([] : Bytes)
      from rfl,
    List.append_nil]

/-- At offset `1` the block of `c2Table` does not hold the string
`[98]` followed by NUL: it holds two `97` bytes. -/
theorem c2_block_take_ne :
    ((SoundEntries.write_string_block c2Table).drop 1).take ([98].length + 1)
        ≠ [98] ++ [0] := by
  have hblock : SoundEntries.write_string_block c2Table
      = 0 :: ((List.replicate (2 ^ 32 - 1) 97 ++ [0]) ++ ([98] ++ [0])) := by
    unfold SoundEntries.write_string_block
    rw [show c2Table.rows = [c2Row] from rfl]
    rw [List.flatMap_cons, List.flatMap_nil, List.append_nil, c2_blockBytes_eq]
  rw [hblock]
  rw [List.drop_succ_cons, List.drop_zero]
  have h1 : (2 : Nat) ≤ (List.replicate (2 ^ 32 - 1) 97 ++ [0]).length := by
    rw [List.length_append, List.length_replicate, List.length_singleton]
    omega
  have h2 : (2 : Nat) ≤ (List.replicate (2 ^ 32 - 1) 97).length := by
    rw [List.length_replicate]
    omega
  have htake : ((List.replicate (2 ^ 32 - 1) 97 ++ [0])
      ++ ([98] ++ [0])).take 2 = [97, 97] := by
    rw [List.take_append_of_le_length h1]
    rw [List.take_append_of_le_length h2]
    rw [List.take_replicate]
    rw [show min 2 (2 ^ 32 - 1) = 2 by omega]
    rfl
  rw [show ([98].length + 1 : Nat) = 2 from rfl]
  rw [htake]
  decide

/-- C2 counterexample: the claim fails as stated.  With a
`2^32 - 1`-byte `name`, the second non-empty encounter
(`directory_base = "b"`) is emitted with the truncated `u32` offset `1`
(the cursor is `2^32 + 1`), but `write_string_block` places that
string's first byte at block offset `2^32 + 1`; at offset `1` the block
holds byte `97`, not `98`. -/
theorem c2_counterexample :
    encOffsets (SoundEntries.slotsFlat c2Table) 1
        = [(1, List.replicate (2 ^ 32 - 1) 97), (1, [98])]
    ∧ ((SoundEntries.write_string_block c2Table).drop 1).take ([98].length + 1)
        ≠ [98] ++ [0] :=
  ⟨c2_encOffsets_eq, c2_block_take_ne⟩

/-- C2 (amended): provided the total string-block size fits `u32`, at
every point where a non-empty string is encountered during record
emission the emitted `string_index` value equals the byte offset at
which `write_string_block` places that string's first byte (the block
holds the string followed by its NUL there), and the order of the
string block is exactly the encounter order of record emission. -/
theorem c2_string_index_placement (t : SoundEntries)
    (hb : 1 + weight (SoundEntries.slotsFlat t) < 2 ^ 32) :
    t.write_string_block
        = 0 :: ((SoundEntries.slotsFlat t).filter (· ≠ [])).flatMap
            (fun s => s ++ [0])
    ∧ (encOffsets (SoundEntries.slotsFlat t) 1).map Prod.snd
        = (SoundEntries.slotsFlat t).filter (· ≠ [])
    ∧ ∀ p ∈ encOffsets (SoundEntries.slotsFlat t) 1,
        (t.write_string_block.drop p.1).take (p.2.length + 1) = p.2 ++ [0] := by
  refine ⟨?_, encOffsets_map_snd _ _, ?_⟩
  · rw [SoundEntries.sound_write_string_block_eq, refBlock_filter]
  · intro p hp
    rw [SoundEntries.sound_write_string_block_eq]
    exact encOffsets_placement (SoundEntries.slotsFlat t) [] hb p hp

/-- A small well-formed `SoundEntries` table for the C2 witness. -/
def c2wRow : SoundEntriesRow :=
  ⟨⟨1⟩, 0, [97], [[], [98, 99], [], [], [], [], [], [], [], []],
   [0, 0, 0, 0, 0, 0, 0, 0, 0, 0], [100], 0, 0, 0, 0, 0⟩

/-- One-row table around `c2wRow`. -/
def c2wTable : SoundEntries := ⟨[c2wRow]⟩

/-- Witness for the amended C2 at a concrete input. -/
theorem c2_string_index_placement_witness :
    (c2wTable.write_string_block
        = 0 :: ((SoundEntries.slotsFlat c2wTable).filter (· ≠ [])).flatMap
            (fun s => s ++ [0])
      ∧ (encOffsets (SoundEntries.slotsFlat c2wTable) 1).map Prod.snd
          = (SoundEntries.slotsFlat c2wTable).filter (· ≠ [])
      ∧ ∀ p ∈ encOffsets (SoundEntries.slotsFlat c2wTable) 1,
          (c2wTable.write_string_block.drop p.1).take (p.2.length + 1)
            = p.2 ++ [0]) :=
  c2_string_index_placement c2wTable (by decide)

/-- C3 (amended): the header `SoundEntries::write` emits carries
`record_count = rows.len() as u32` (equal to the row count whenever it
fits `u32`), the compile-time `FIELD_COUNT` and `ROW_SIZE` (which are
the length and the sum of the per-field on-wire widths), and
`string_block_size` equal (modulo the `as u32` cast) to 1 plus the sum
of `len + 1` over all non-empty string slots in declared traversal
order. -/
theorem c3_header_consistency (t : SoundEntries) :
    (t.rows.length < 2 ^ 32 →
      (SoundEntries.header t).record_count = t.rows.length)
    ∧ (SoundEntries.header t).field_count = SoundEntries.FIELD_COUNT
    ∧ (SoundEntries.header t).record_size = SoundEntries.ROW_SIZE
    ∧ SoundEntries.ROW_SIZE = SoundEntries.fieldWidths.sum
    ∧ SoundEntries.FIELD_COUNT = SoundEntries.fieldWidths.length
    ∧ (t.string_block_sizeNat < 2 ^ 32 →
        (SoundEntries.header t).string_block_size
          = 1 + weight (SoundEntries.slotsFlat t)) := by
  refine ⟨fun h => Nat.mod_eq_of_lt h, rfl, rfl, by decide, by decide, fun h => ?_⟩
  show t.string_block_sizeNat % 2 ^ 32 = _
  rw [Nat.mod_eq_of_lt h, SoundEntries.sound_string_block_sizeNat_eq]

/-- Witness for the amended C3 at a concrete input. -/
theorem c3_header_consistency_witness :
    (SoundEntries.header c2wTable).record_count = c2wTable.rows.length
    ∧ (SoundEntries.header c2wTable).string_block_size
        = 1 + weight (SoundEntries.slotsFlat c2wTable) :=
  ⟨(c3_header_consistency c2wTable).1 (by decide),
   (c3_header_consistency c2wTable).2.2.2.2.2 (by decide)⟩

/-- A `SoundEntries` row with no strings at all. -/
def c3Row : SoundEntriesRow :=
  ⟨⟨0⟩, 0, [], [[], [], [], [], [], [], [], [], [], []],
   [0, 0, 0, 0, 0, 0, 0, 0, 0, 0], [], 0, 0, 0, 0, 0⟩

/-- A table with `2^32` rows: representable in memory, but its row
count does not fit the `u32` header field. -/
def c3Table : SoundEntries := ⟨List.replicate (2 ^ 32) c3Row⟩

/-- C3 counterexample: the claim fails as stated.  For a table with
`2^32` rows, `rows.len() as u32` wraps to `0`, so the emitted
`record_count` is not the number of rows. -/
theorem c3_counterexample :
    (SoundEntries.header c3Table).record_count = 0
    ∧ c3Table.rows.length = 2 ^ 32
    ∧ (0 : Nat) ≠ 2 ^ 32 := by
  have hlen : c3Table.rows.length = 2 ^ 32 := by
    rw [show c3Table.rows = List.replicate (2 ^ 32) c3Row from rfl]
    rw [List.length_replicate]
  refine ⟨?_, hlen, by norm_num⟩
  rw [SoundEntries.header_record_count, hlen, Nat.mod_self]

/-- One `FileData` row contributes exactly the reference block bytes of
its two string slots. -/
theorem FileDataRow.fd_blockBytes_eq (r : FileDataRow) :
    r.blockBytes = refBlock r.strSlots := by
  simp only [FileDataRow.blockBytes, FileDataRow.strSlots, refBlock_cons,
    refBlock_nil, List.append_nil, List.append_assoc]

theorem FileData.fd_flatMap_blockBytes (rows : List FileDataRow) :
    rows.flatMap FileDataRow.blockBytes
      = refBlock (rows.flatMap FileDataRow.strSlots) := by
  induction rows with
  | nil => rfl
  | cons r rs ih =>
    simp only [List.flatMap_cons, refBlock_append, ih,
      FileDataRow.fd_blockBytes_eq]

theorem FileData.fd_write_string_block_eq (t : FileData) :
    t.write_string_block = 0 :: refBlock (FileData.slotsFlat t) := by
  unfold FileData.write_string_block FileData.slotsFlat
  rw [FileData.fd_flatMap_blockBytes]

/-- C4 (amended): provided the final cursor value fits `u32`, the
`FileData` record encoder emits, for each `string_ref` slot, the
current `string_index` as `u32` for a non-empty string (advancing the
cursor by `len + 1`) and `u32` zero for an empty one (not advancing);
the emitted value is zero exactly at the empty slots, every non-empty
occurrence receives a strictly larger offset than all earlier ones
(hence all offsets are pairwise distinct, with no deduplication of
equal strings), and the string block receives bytes only for the
non-empty occurrences, in encounter order. -/
theorem c4_string_ref_encoding (t : FileData)
    (hb : 1 + weight (FileData.slotsFlat t) ≤ 2 ^ 32) :
    (∀ (r : FileDataRow) (string_index : Nat),
        (r.writeRow string_index).1
            = i32le r.id.id
              ++ (refValues r.strSlots string_index).flatMap u32le
          ∧ (r.writeRow string_index).2 = string_index + weight r.strSlots)
    ∧ (∀ p ∈ (FileData.slotsFlat t).zip
          (refValues (FileData.slotsFlat t) 1), (p.2 = 0 ↔ p.1 = []))
    ∧ (encOffsets (FileData.slotsFlat t) 1).Pairwise (fun p q => p.1 < q.1)
    ∧ t.write_string_block
        = 0 :: ((FileData.slotsFlat t).filter (· ≠ [])).flatMap
            (fun s => s ++ [0]) := by
  refine ⟨FileDataRow.writeRow_refValues,
    refValues_zero_iff _ 1 le_rfl hb,
    encOffsets_strictMono _ 1 le_rfl hb, ?_⟩
  rw [FileData.fd_write_string_block_eq, refBlock_filter]

/-- A two-row `FileData` table where two non-empty occurrences hold the
equal string `"a"` (and one slot is empty). -/
def c4wTable : FileData := ⟨[⟨⟨1⟩, [97], []⟩, ⟨⟨2⟩, [97], [98]⟩]⟩

/-- Witness for the amended C4 at a concrete input. -/
theorem c4_string_ref_encoding_witness :
    (∀ (r : FileDataRow) (string_index : Nat),
        (r.writeRow string_index).1
            = i32le r.id.id
              ++ (refValues r.strSlots string_index).flatMap u32le
          ∧ (r.writeRow string_index).2 = string_index + weight r.strSlots)
    ∧ (∀ p ∈ (FileData.slotsFlat c4wTable).zip
          (refValues (FileData.slotsFlat c4wTable) 1), (p.2 = 0 ↔ p.1 = []))
    ∧ (encOffsets (FileData.slotsFlat c4wTable) 1).Pairwise
        (fun p q => p.1 < q.1)
    ∧ c4wTable.write_string_block
        = 0 :: ((FileData.slotsFlat c4wTable).filter (· ≠ [])).flatMap
            (fun s => s ++ [0]) :=
  c4_string_ref_encoding c4wTable (by decide)

/-- A `FileData` row whose `filename` is `2^32 - 1` bytes long, driving
the cursor past `u32` range before `filepath` is emitted. -/
def c4Row : FileDataRow := ⟨⟨0⟩, List.replicate (2 ^ 32 - 1) 97, [98]⟩

/-- One-row table around `c4Row`. -/
def c4Table : FileData := ⟨[c4Row]⟩

/-- The flattened slot list of `c4Table`, spelled out. -/
theorem c4_slotsFlat_eq :
    FileData.slotsFlat c4Table
      = [List.replicate (2 ^ 32 - 1) 97, [98]] := by
  unfold FileData.slotsFlat
  rw [show c4Table.rows = [c4Row] from rfl]
  rw [List.flatMap_cons, List.flatMap_nil, List.append_nil]
  rw [show FileDataRow.strSlots c4Row
      = [List.replicate (2 ^ 32 - 1) 97, [98]] from rfl]

/-- The emitted offsets for `c4Table`: the cursor wraps and the second
non-empty occurrence is announced at offset `1` again. -/
theorem c4_encOffsets_eq :
    encOffsets (FileData.slotsFlat c4Table) 1
        = [(1, List.replicate (2 ^ 32 - 1) 97), (1, [98])] := by
  rw [c4_slotsFlat_eq]
  rw [encOffsets, if_neg c2_name_ne_nil]
  rw [List.length_replicate]
  rw [show (1 + (2 ^ 32 - 1) + 1 : Nat) = 2 ^ 32 + 1 by omega]
  rw [show encOffsets [[98]] (2 ^ 32 + 1)
      = [((2 ^ 32 + 1) % 2 ^ 32, [98])] from rfl]
  rw [show ((2 ^ 32 + 1) % 2 ^ 32 : Nat) = 1 by norm_num]
  rw [show (1 % 2 ^ 32 : Nat) = 1 by norm_num]

/-- C4 counterexample: the claim fails as stated.  With a
`2^32 - 1`-byte `filename`, the cursor reaches `2^32 + 1` and the
`as u32` cast truncates it, so the `filepath` occurrence receives
offset `1` — the same offset as the `filename` occurrence: the emitted
offsets are not pairwise distinct. -/
theorem c4_counterexample :
    encOffsets (FileData.slotsFlat c4Table) 1
        = [(1, List.replicate (2 ^ 32 - 1) 97), (1, [98])]
    ∧ ¬ (encOffsets (FileData.slotsFlat c4Table) 1).Pairwise
        (fun p q => p.1 ≠ q.1) := by
  refine ⟨c4_encOffsets_eq, ?_⟩
  rw [c4_encOffsets_eq]
  intro h
  exact List.rel_of_pairwise_cons h (List.mem_singleton.mpr rfl) rfl

/-- `Result::ok()`: the `Option` view of a fallible conversion, as used
in `key.try_into().ok()?`. -/
def exceptOk {ε α : Type} : Except ε α → Option α
  | .ok a => some a
  | .error _ => none

theorem LockTypeKey.lockKey_eq_of_id_eq {a b : LockTypeKey} (h : a.id = b.id) :
    a = b := congrArg LockTypeKey.mk h

theorem SpellRangeKey.spellKey_eq_of_id_eq {a b : SpellRangeKey} (h : a.id = b.id) :
    a = b := congrArg SpellRangeKey.mk h

theorem LockType.lock_get_some (t : LockType) (k : LockTypeKey) :
    LockType.get t (some k) = t.rows.find? (fun a => a.id.id == k.id) := rfl

theorem SpellRange.spell_get_some (t : SpellRange) (k : SpellRangeKey) :
    SpellRange.get t (some k) = t.rows.find? (fun a => a.id.id == k.id) := rfl

theorem LockType.lock_beq_key (k : LockTypeKey) (a : LockTypeRow) :
    (a.id.id == k.id) = true ↔ a.id = k := by
  rw [beq_iff_eq]
  exact ⟨fun h => LockTypeKey.lockKey_eq_of_id_eq h, fun h => by rw [h]⟩

theorem SpellRange.spell_beq_key (k : SpellRangeKey) (a : SpellRangeRow) :
    (a.id.id == k.id) = true ↔ a.id = k := by
  rw [beq_iff_eq]
  exact ⟨fun h => SpellRangeKey.spellKey_eq_of_id_eq h, fun h => by rw [h]⟩

/-- C7: `get`/`get_mut` agree and return the first row (in row order)
whose primary-key field equals the key, `none` exactly when no row
matches, `none` for a `None` key, and `none` (not an error) when the
fallible integer conversion fails: shown for `LockType` (an `i32` key,
with a `u32` input at or above `2^31`) and `SpellRange` (a `u32` key,
with a negative `i32` input). -/
theorem c7_get_first_match (t : LockType) (k : LockTypeKey)
    (u : SpellRange) (q : SpellRangeKey) (v : Nat) (x : Int)
    (hv : 2 ^ 31 ≤ v) (hx : x < 0) :
    LockType.get t none = none
    ∧ LockType.get_mut t (some k) = LockType.get t (some k)
    ∧ (∀ r, LockType.get t (some k) = some r →
        r.id = k ∧ ∃ l1 l2, t.rows = l1 ++ r :: l2 ∧ ∀ a ∈ l1, a.id ≠ k)
    ∧ (∀ r l1 l2, t.rows = l1 ++ r :: l2 → r.id = k →
        (∀ a ∈ l1, a.id ≠ k) → LockType.get t (some k) = some r)
    ∧ (LockType.get t (some k) = none ↔ ∀ a ∈ t.rows, a.id ≠ k)
    ∧ LockType.get t (exceptOk (LockTypeKey.tryFromU32 v)) = none
    ∧ SpellRange.get u none = none
    ∧ SpellRange.get_mut u (some q) = SpellRange.get u (some q)
    ∧ (∀ r, SpellRange.get u (some q) = some r →
        r.id = q ∧ ∃ l1 l2, u.rows = l1 ++ r :: l2 ∧ ∀ a ∈ l1, a.id ≠ q)
    ∧ (∀ r l1 l2, u.rows = l1 ++ r :: l2 → r.id = q →
        (∀ a ∈ l1, a.id ≠ q) → SpellRange.get u (some q) = some r)
    ∧ (SpellRange.get u (some q) = none ↔ ∀ a ∈ u.rows, a.id ≠ q)
    ∧ SpellRange.get u (exceptOk (SpellRangeKey.tryFromI32 x)) = none := by
  refine ⟨rfl, rfl, ?_, ?_, ?_, ?_, rfl, rfl, ?_, ?_, ?_, ?_⟩
  · intro r hr
    rw [LockType.lock_get_some] at hr
    obtain ⟨hp, l1, l2, heq, hprev⟩ := List.find?_eq_some.mp hr
    refine ⟨(LockType.lock_beq_key k r).mp hp, l1, l2, heq, fun a ha hak => ?_⟩
    have hb := hprev a ha
    rw [(LockType.lock_beq_key k a).mpr hak] at hb
    simp at hb
  · intro r l1 l2 heq hrk hprev
    rw [LockType.lock_get_some, List.find?_eq_some]
    refine ⟨(LockType.lock_beq_key k r).mpr hrk, l1, l2, heq, fun a ha => ?_⟩
    cases hb : (a.id.id == k.id) with
    | true => exact absurd ((LockType.lock_beq_key k a).mp hb) (hprev a ha)
    | false => rfl
  · rw [LockType.lock_get_some, List.find?_eq_none]
    refine ⟨fun h a ha hak => ?_, fun h a ha hc => ?_⟩
    · exact h a ha ((LockType.lock_beq_key k a).mpr hak)
    · exact h a ha ((LockType.lock_beq_key k a).mp hc)
  · rw [show LockTypeKey.tryFromU32 v = .error v from by
      rw [LockTypeKey.tryFromU32, if_neg (by omega)]]
    rfl
  · intro r hr
    rw [SpellRange.spell_get_some] at hr
    obtain ⟨hp, l1, l2, heq, hprev⟩ := List.find?_eq_some.mp hr
    refine ⟨(SpellRange.spell_beq_key q r).mp hp, l1, l2, heq, fun a ha hak => ?_⟩
    have hb := hprev a ha
    rw [(SpellRange.spell_beq_key q a).mpr hak] at hb
    simp at hb
  · intro r l1 l2 heq hrk hprev
    rw [SpellRange.spell_get_some, List.find?_eq_some]
    refine ⟨(SpellRange.spell_beq_key q r).mpr hrk, l1, l2, heq, fun a ha => ?_⟩
    cases hb : (a.id.id == q.id) with
    | true => exact absurd ((SpellRange.spell_beq_key q a).mp hb) (hprev a ha)
    | false => rfl
  · rw [SpellRange.spell_get_some, List.find?_eq_none]
    refine ⟨fun h a ha hak => ?_, fun h a ha hc => ?_⟩
    · exact h a ha ((SpellRange.spell_beq_key q a).mpr hak)
    · exact h a ha ((SpellRange.spell_beq_key q a).mp hc)
  · rw [show SpellRangeKey.tryFromI32 x = .error x from by
      rw [SpellRangeKey.tryFromI32, if_neg (by
        intro hcon
        omega)]]
    rfl

/-- C8: every `From`/`TryFrom` key conversion is exact, shown for
`LockTypeKey` (`i32` underlying) and `SpellRangeKey` (`u32`
underlying): the infallible `From` conversions (from types whose whole
range fits the key width) preserve the value; each fallible `TryFrom`
succeeds with an equal-valued key exactly when the input fits the key
width and otherwise returns the original input as the error. -/
theorem c8_key_conversions
    (a b : Nat) (c d e : Int) (u u2 u3 : Nat) (w w2 : Int)
    (ha : a < 2 ^ 8) (hb : b < 2 ^ 16)
    (hc : -2 ^ 7 ≤ c ∧ c < 2 ^ 7) (hd : -2 ^ 15 ≤ d ∧ d < 2 ^ 15)
    (he : -2 ^ 31 ≤ e ∧ e < 2 ^ 31)
    (hu : u < 2 ^ 32) (hu2 : u2 < 2 ^ 64) (hu3 : u3 < 2 ^ 64)
    (hw : -2 ^ 63 ≤ w ∧ w < 2 ^ 63) (hw2 : -2 ^ 63 ≤ w2 ∧ w2 < 2 ^ 63) :
    (LockTypeKey.fromU8 a).id = a
    ∧ (LockTypeKey.fromU16 b).id = b
    ∧ (LockTypeKey.fromI8 c).id = c
    ∧ (LockTypeKey.fromI16 d).id = d
    ∧ (LockTypeKey.fromI32 e).id = e
    ∧ (u < 2 ^ 31 → LockTypeKey.tryFromU32 u = .ok ⟨(u : Int)⟩)
    ∧ (2 ^ 31 ≤ u → LockTypeKey.tryFromU32 u = .error u)
    ∧ (u2 < 2 ^ 31 → LockTypeKey.tryFromUsize u2 = .ok ⟨(u2 : Int)⟩)
    ∧ (2 ^ 31 ≤ u2 → LockTypeKey.tryFromUsize u2 = .error u2)
    ∧ (u3 < 2 ^ 31 → LockTypeKey.tryFromU64 u3 = .ok ⟨(u3 : Int)⟩)
    ∧ (2 ^ 31 ≤ u3 → LockTypeKey.tryFromU64 u3 = .error u3)
    ∧ (-2 ^ 31 ≤ w ∧ w < 2 ^ 31 → LockTypeKey.tryFromI64 w = .ok ⟨w⟩)
    ∧ (¬(-2 ^ 31 ≤ w ∧ w < 2 ^ 31) → LockTypeKey.tryFromI64 w = .error w)
    ∧ (-2 ^ 31 ≤ w2 ∧ w2 < 2 ^ 31 → LockTypeKey.tryFromIsize w2 = .ok ⟨w2⟩)
    ∧ (¬(-2 ^ 31 ≤ w2 ∧ w2 < 2 ^ 31) →
        LockTypeKey.tryFromIsize w2 = .error w2)
    ∧ (SpellRangeKey.fromU8 a).id = a
    ∧ (SpellRangeKey.fromU16 b).id = b
    ∧ (SpellRangeKey.fromU32 u).id = u
    ∧ (u3 < 2 ^ 32 → SpellRangeKey.tryFromU64 u3 = .ok ⟨u3⟩)
    ∧ (2 ^ 32 ≤ u3 → SpellRangeKey.tryFromU64 u3 = .error u3)
    ∧ (u2 < 2 ^ 32 → SpellRangeKey.tryFromUsize u2 = .ok ⟨u2⟩)
    ∧ (2 ^ 32 ≤ u2 → SpellRangeKey.tryFromUsize u2 = .error u2)
    ∧ (0 ≤ c → SpellRangeKey.tryFromI8 c = .ok ⟨c.toNat⟩)
    ∧ (c < 0 → SpellRangeKey.tryFromI8 c = .error c)
    ∧ (0 ≤ d → SpellRangeKey.tryFromI16 d = .ok ⟨d.toNat⟩)
    ∧ (d < 0 → SpellRangeKey.tryFromI16 d = .error d)
    ∧ (0 ≤ e → SpellRangeKey.tryFromI32 e = .ok ⟨e.toNat⟩)
    ∧ (e < 0 → SpellRangeKey.tryFromI32 e = .error e)
    ∧ (0 ≤ w ∧ w < 2 ^ 32 → SpellRangeKey.tryFromI64 w = .ok ⟨w.toNat⟩)
    ∧ (¬(0 ≤ w ∧ w < 2 ^ 32) → SpellRangeKey.tryFromI64 w = .error w)
    ∧ (0 ≤ w2 ∧ w2 < 2 ^ 32 → SpellRangeKey.tryFromIsize w2 = .ok ⟨w2.toNat⟩)
    ∧ (¬(0 ≤ w2 ∧ w2 < 2 ^ 32) → SpellRangeKey.tryFromIsize w2 = .error w2) := by
  refine ⟨rfl, rfl, rfl, rfl, rfl,
    fun h => by rw [LockTypeKey.tryFromU32, if_pos h]; rfl,
    fun h => by rw [LockTypeKey.tryFromU32, if_neg (by omega)],
    fun h => by rw [LockTypeKey.tryFromUsize, if_pos h]; rfl,
    fun h => by rw [LockTypeKey.tryFromUsize, if_neg (by omega)],
    fun h => by rw [LockTypeKey.tryFromU64, if_pos h]; rfl,
    fun h => by rw [LockTypeKey.tryFromU64, if_neg (by omega)],
    fun h => by rw [LockTypeKey.tryFromI64, if_pos h]; rfl,
    fun h => by rw [LockTypeKey.tryFromI64, if_neg h],
    fun h => by rw [LockTypeKey.tryFromIsize, if_pos h]; rfl,
    fun h => by rw [LockTypeKey.tryFromIsize, if_neg h],
    rfl, rfl, rfl,
    fun h => by rw [SpellRangeKey.tryFromU64, if_pos h]; rfl,
    fun h => by rw [SpellRangeKey.tryFromU64, if_neg (by omega)],
    fun h => by rw [SpellRangeKey.tryFromUsize, if_pos h]; rfl,
    fun h => by rw [SpellRangeKey.tryFromUsize, if_neg (by omega)],
    fun h => by rw [SpellRangeKey.tryFromI8, if_pos ⟨h, by omega⟩]; rfl,
    fun h => by rw [SpellRangeKey.tryFromI8, if_neg (by omega)],
    fun h => by rw [SpellRangeKey.tryFromI16, if_pos ⟨h, by omega⟩]; rfl,
    fun h => by rw [SpellRangeKey.tryFromI16, if_neg (by omega)],
    fun h => by rw [SpellRangeKey.tryFromI32, if_pos ⟨h, by omega⟩]; rfl,
    fun h => by rw [SpellRangeKey.tryFromI32, if_neg (by omega)],
    fun h => by rw [SpellRangeKey.tryFromI64, if_pos h]; rfl,
    fun h => by rw [SpellRangeKey.tryFromI64, if_neg h],
    fun h => by rw [SpellRangeKey.tryFromIsize, if_pos h]; rfl,
    fun h => by rw [SpellRangeKey.tryFromIsize, if_neg h]⟩

/-- Witness for C8 at concrete inputs, one per conversion. -/
theorem c8_key_conversions_witness :
    (LockTypeKey.fromU8 200).id = 200
    ∧ (LockTypeKey.fromU16 60000).id = 60000
    ∧ (LockTypeKey.fromI8 (-5)).id = -5
    ∧ (LockTypeKey.fromI16 300).id = 300
    ∧ (LockTypeKey.fromI32 (-7)).id = -7
    ∧ ((5 : Nat) < 2 ^ 31 → LockTypeKey.tryFromU32 5 = .ok ⟨(5 : Int)⟩)
    ∧ (2 ^ 31 ≤ (5 : Nat) → LockTypeKey.tryFromU32 5 = .error 5)
    ∧ ((2 ^ 40 : Nat) < 2 ^ 31 →
        LockTypeKey.tryFromUsize (2 ^ 40) = .ok ⟨((2 ^ 40 : Nat) : Int)⟩)
    ∧ (2 ^ 31 ≤ (2 ^ 40 : Nat) →
        LockTypeKey.tryFromUsize (2 ^ 40) = .error (2 ^ 40))
    ∧ ((9 : Nat) < 2 ^ 31 → LockTypeKey.tryFromU64 9 = .ok ⟨(9 : Int)⟩)
    ∧ (2 ^ 31 ≤ (9 : Nat) → LockTypeKey.tryFromU64 9 = .error 9)
    ∧ (-2 ^ 31 ≤ (-3 : Int) ∧ (-3 : Int) < 2 ^ 31 →
        LockTypeKey.tryFromI64 (-3) = .ok ⟨-3⟩)
    ∧ (¬(-2 ^ 31 ≤ (-3 : Int) ∧ (-3 : Int) < 2 ^ 31) →
        LockTypeKey.tryFromI64 (-3) = .error (-3))
    ∧ (-2 ^ 31 ≤ (2 ^ 35 : Int) ∧ (2 ^ 35 : Int) < 2 ^ 31 →
        LockTypeKey.tryFromIsize (2 ^ 35) = .ok ⟨2 ^ 35⟩)
    ∧ (¬(-2 ^ 31 ≤ (2 ^ 35 : Int) ∧ (2 ^ 35 : Int) < 2 ^ 31) →
        LockTypeKey.tryFromIsize (2 ^ 35) = .error (2 ^ 35))
    ∧ (SpellRangeKey.fromU8 200).id = 200
    ∧ (SpellRangeKey.fromU16 60000).id = 60000
    ∧ (SpellRangeKey.fromU32 5).id = 5
    ∧ ((9 : Nat) < 2 ^ 32 → SpellRangeKey.tryFromU64 9 = .ok ⟨9⟩)
    ∧ (2 ^ 32 ≤ (9 : Nat) → SpellRangeKey.tryFromU64 9 = .error 9)
    ∧ ((2 ^ 40 : Nat) < 2 ^ 32 →
        SpellRangeKey.tryFromUsize (2 ^ 40) = .ok ⟨2 ^ 40⟩)
    ∧ (2 ^ 32 ≤ (2 ^ 40 : Nat) →
        SpellRangeKey.tryFromUsize (2 ^ 40) = .error (2 ^ 40))
    ∧ (0 ≤ (-5 : Int) → SpellRangeKey.tryFromI8 (-5) = .ok ⟨(-5 : Int).toNat⟩)
    ∧ ((-5 : Int) < 0 → SpellRangeKey.tryFromI8 (-5) = .error (-5))
    ∧ (0 ≤ (300 : Int) → SpellRangeKey.tryFromI16 300 = .ok ⟨(300 : Int).toNat⟩)
    ∧ ((300 : Int) < 0 → SpellRangeKey.tryFromI16 300 = .error 300)
    ∧ (0 ≤ (-7 : Int) → SpellRangeKey.tryFromI32 (-7) = .ok ⟨(-7 : Int).toNat⟩)
    ∧ ((-7 : Int) < 0 → SpellRangeKey.tryFromI32 (-7) = .error (-7))
    ∧ (0 ≤ (-3 : Int) ∧ (-3 : Int) < 2 ^ 32 →
        SpellRangeKey.tryFromI64 (-3) = .ok ⟨(-3 : Int).toNat⟩)
    ∧ (¬(0 ≤ (-3 : Int) ∧ (-3 : Int) < 2 ^ 32) →
        SpellRangeKey.tryFromI64 (-3) = .error (-3))
    ∧ (0 ≤ (2 ^ 35 : Int) ∧ (2 ^ 35 : Int) < 2 ^ 32 →
        SpellRangeKey.tryFromIsize (2 ^ 35) = .ok ⟨(2 ^ 35 : Int).toNat⟩)
    ∧ (¬(0 ≤ (2 ^ 35 : Int) ∧ (2 ^ 35 : Int) < 2 ^ 32) →
        SpellRangeKey.tryFromIsize (2 ^ 35) = .error (2 ^ 35)) :=
  c8_key_conversions 200 60000 (-5) 300 (-7) 5 (2 ^ 40) 9 (-3) (2 ^ 35)
    (by norm_num) (by norm_num) (by norm_num) (by norm_num) (by norm_num)
    (by norm_num) (by norm_num) (by norm_num) (by norm_num) (by norm_num)

/-- C9: the generated `FromStr` for a version's `TableName` enum (one
arm per table, in catalog order, over a duplicate-free name catalog)
maps the exact name of the `i`-th table to `Ok` of that table's
variant, and maps any string that is not the exact name of a known
table to `Err(InvalidTableName)` carrying the input string. -/
theorem c9_table_name_parsing (names : List String) (s : String) (i : Nat)
    (hnd : names.Nodup) :
    (names[i]? = some s → tableNameFromStr names s = .ok i)
    ∧ (s ∉ names → tableNameFromStr names s
        = .error (DbcError.invalidTableName s)) := by
  constructor
  · intro hi
    obtain ⟨hilen, hgi⟩ := List.getElem?_eq_some_iff.mp hi
    have hf : names.findIdx? (fun n => n == s) = some i := by
      rw [List.findIdx?_eq_some_iff_getElem]
      refine ⟨hilen, by rw [beq_iff_eq]; exact hgi, ?_⟩
      intro j hji hpj
      rw [beq_iff_eq] at hpj
      have hj : j < names.length := Nat.lt_trans hji hilen
      have hji2 : names[j] = names[i] := by rw [hpj, hgi]
      have := (List.Nodup.getElem_inj_iff hnd).mp hji2
      omega
    unfold tableNameFromStr
    rw [hf]
  · intro hs
    have hf : names.findIdx? (fun n => n == s) = none := by
      rw [List.findIdx?_eq_none_iff]
      intro x hx
      rw [beq_eq_false_iff_ne]
      intro hxs
      exact hs (hxs ▸ hx)
    unfold tableNameFromStr
    rw [hf]

/-- The name catalog for the C9 witness. -/
def c9Names : List String := ["LockType", "SpellRange", "SoundEntries"]

/-- The exact name of the second table in the catalog. -/
def c9Str : String := "SpellRange"

/-- A spelling variant that is not an exact table name. -/
def c9Unknown : String := "spell_range"

/-- Witness for C9 at a concrete catalog: the exact name parses to its
variant, the snake_case variant is rejected with the input echoed. -/
theorem c9_table_name_parsing_witness :
    tableNameFromStr c9Names c9Str = .ok 1
    ∧ tableNameFromStr c9Names c9Unknown
        = .error (DbcError.invalidTableName c9Unknown) :=
  ⟨(c9_table_name_parsing c9Names c9Str 1 (by decide)).1 (by decide),
   (c9_table_name_parsing c9Names c9Unknown 1 (by decide)).2 (by decide)⟩

/-- A `LocalizedString` with all 8 locale slots empty and zero flags. -/
def emptyLoc : LocalizedString := ⟨[[], [], [], [], [], [], [], []], 0⟩

/-- A two-row `LockType` table for the C7 witness. -/
def c7Lock : LockType :=
  ⟨[⟨⟨1⟩, emptyExt, emptyExt, emptyExt, []⟩,
    ⟨⟨2⟩, emptyExt, emptyExt, emptyExt, [97]⟩]⟩

/-- A one-row `SpellRange` table for the C7 witness. -/
def c7Spell : SpellRange := ⟨[⟨⟨3⟩, 0, 0, 0, emptyLoc, emptyLoc⟩]⟩

/-- Witness for C7 at concrete inputs: a two-row `LockType` table with
key `2` looked up, a `u32` input of `2^31` (too big for `i32`), a
one-row `SpellRange` table with key `3` looked up, and the negative
input `-1`. -/
theorem c7_get_first_match_witness :
    LockType.get c7Lock none = none
    ∧ LockType.get_mut c7Lock (some ⟨2⟩) = LockType.get c7Lock (some ⟨2⟩)
    ∧ (∀ r, LockType.get c7Lock (some ⟨2⟩) = some r →
        r.id = ⟨2⟩ ∧ ∃ l1 l2, c7Lock.rows = l1 ++ r :: l2
          ∧ ∀ a ∈ l1, a.id ≠ ⟨2⟩)
    ∧ (∀ r l1 l2, c7Lock.rows = l1 ++ r :: l2 → r.id = ⟨2⟩ →
        (∀ a ∈ l1, a.id ≠ ⟨2⟩) → LockType.get c7Lock (some ⟨2⟩) = some r)
    ∧ (LockType.get c7Lock (some ⟨2⟩) = none
        ↔ ∀ a ∈ c7Lock.rows, a.id ≠ ⟨2⟩)
    ∧ LockType.get c7Lock (exceptOk (LockTypeKey.tryFromU32 (2 ^ 31))) = none
    ∧ SpellRange.get c7Spell none = none
    ∧ SpellRange.get_mut c7Spell (some ⟨3⟩) = SpellRange.get c7Spell (some ⟨3⟩)
    ∧ (∀ r, SpellRange.get c7Spell (some ⟨3⟩) = some r →
        r.id = ⟨3⟩ ∧ ∃ l1 l2, c7Spell.rows = l1 ++ r :: l2
          ∧ ∀ a ∈ l1, a.id ≠ ⟨3⟩)
    ∧ (∀ r l1 l2, c7Spell.rows = l1 ++ r :: l2 → r.id = ⟨3⟩ →
        (∀ a ∈ l1, a.id ≠ ⟨3⟩) → SpellRange.get c7Spell (some ⟨3⟩) = some r)
    ∧ (SpellRange.get c7Spell (some ⟨3⟩) = none
        ↔ ∀ a ∈ c7Spell.rows, a.id ≠ ⟨3⟩)
    ∧ SpellRange.get c7Spell (exceptOk (SpellRangeKey.tryFromI32 (-1))) = none :=
  c7_get_first_match c7Lock ⟨2⟩ c7Spell ⟨3⟩ (2 ^ 31) (-1)
    (by norm_num) (by norm_num)
